import Mathlib

/-!
# Verification of the bunyan-lite log pipeline (`src/lib/bunyan.mjs`)

A shallow embedding, in Lean 4, of the CLI core of `node-bunyan-lite`:
the per-source line reassembler (`processFile`/`processStdin` data
handlers), the record classifier (`handleLogLine`/`isValidRecord`), the
filter (`filterRecord`), the k-way merge scheduler
(`gotRecord`/`emitNextRecord`), and the renderer (`emitRecord`), together
with the JSON value model (`JSON.parse`/`JSON.stringify`) they operate on.

Modelling conventions:
* JavaScript strings are Lean `String`/`List Char` (Unicode scalar
  values); byte-level UTF-8 decoding is performed by Node's external
  `StringDecoder`, which is modelled at its interface boundary: chunk
  handlers receive already-decoded text.
* JSON numbers are modelled as integers (`Int`); none of the verified
  properties concern floating point.
* JavaScript objects are association lists in insertion order, which is
  exactly the key-enumeration order of string-keyed JS objects.
* Fallible JS code (`throw`) is modelled with `Except String`.

The file is organised as definitions first, then the theorems.
-/

namespace Bunyan

/-! ## Definitions: line reassembler (`processFile`/`processStdin` data handlers)

The source splits each decoded chunk with `chunk.split(/\r\n|\n/)`,
prepends the buffered `leftover` to the first piece, emits every piece
except the last, and keeps the last piece as the new `leftover`.  On
`end`, a non-empty `leftover` is emitted as a final line.
-/

/-- `chunk.split(/\r\n|\n/)`: split a character sequence at each `\r\n`
or `\n` (leftmost match first, so a `\r` immediately followed by `\n` is
consumed together with it; a lone `\r` is ordinary text).  The result is
always non-empty; its last piece is the unterminated trailing fragment. -/
def splitLines : List Char → List (List Char)
  | [] => [[]]
  | '\r' :: '\n' :: rest => [] :: splitLines rest
  | '\n' :: rest => [] :: splitLines rest
  | c :: rest =>
    match splitLines rest with
    | [] => [[c]]
    | p :: ps => (c :: p) :: ps

/-- State of one source's reassembler: the buffered partial line and the
lines handed to `handleLogLine` so far (in order). -/
structure RState where
  leftover : List Char
  emitted : List (List Char)
  deriving Repr, DecidableEq

/-- The `stream.on('data', ...)` handler of `processFile`: empty decoded
chunks are ignored; a chunk with no line terminator is appended to
`leftover` (`lines.length === 1` branch); otherwise `leftover + lines[0]`
and the middle pieces are emitted in order and the final piece becomes
the new `leftover`. -/
def onData (st : RState) (chunk : List Char) : RState :=
  if chunk.isEmpty then st
  else
    let lines := splitLines chunk
    if lines.length = 1 then
      { st with leftover := st.leftover ++ lines.headD [] }
    else
      { leftover := lines.getLastD [],
        emitted := st.emitted ++ [st.leftover ++ lines.headD []] ++
          (lines.drop 1).dropLast }

/-- The `stream.on('end', ...)` handler: a non-empty trailing fragment is
emitted as one final line. -/
def onEnd (st : RState) : List (List Char) :=
  if st.leftover.isEmpty then st.emitted else st.emitted ++ [st.leftover]

/-- Feed a list of chunks through the reassembler and close the stream,
returning every line delivered to the line handler. -/
def runChunks (chunks : List (List Char)) : List (List Char) :=
  onEnd (chunks.foldl onData ⟨[], []⟩)

/-- The reassembler state reached after absorbing the text `T`:
the last piece of `splitLines T` is still buffered, all earlier pieces
have been delivered. -/
def stateOf (T : List Char) : RState :=
  ⟨(splitLines T).getLastD [], (splitLines T).dropLast⟩

/-- A chunk list splits a `\r\n` pair across a boundary: some chunk
starts with `'\n'` while the text delivered before it ends with `'\r'`. -/
def SplitsCRLF (chunks : List (List Char)) : Prop :=
  ∃ i : Fin chunks.length,
    ((chunks.take i.val).flatten.getLast? = some '\r') ∧
    (chunks.get i).head? = some '\n'

instance (chunks : List (List Char)) : Decidable (SplitsCRLF chunks) := by
  unfold SplitsCRLF; infer_instance


/-! ## Definitions: merge scheduler (`streams`, `gotRecord`, `emitNextRecord`)

The CLI keeps one entry per registered source in insertion order, each
holding the un-emitted `records` queue, the `done` flag set by the
stream's `end` handler, and the `paused` backpressure flag.  The model
adds to each source the `future` list of records its underlying stream
has not yet delivered and the trace `calls` of underlying
`stream.pause()` / `stream.resume()` invocations (`true` = pause, most
recent first); records are abstracted to their parsed `time` value (the
entry's payload does not influence scheduling).  `drainFuel` is the
`emitNextRecord` loop, written with explicit fuel so that it stays
structurally recursive; `drain` supplies sufficient fuel.  `mergeCanon`
is the specification order: repeatedly emit, among the non-exhausted
sources, the one whose head record has the smallest time, ties broken by
the smallest registration index — computed with the same first-minimum
scan (`bestOf`) as `emitNextRecord`'s `minfile` loop.  `stepEv` is one
I/O completion event: `deliver i` hands source `i` its next record
(`gotRecord`: push then `emitNextRecord`), `close i` is the stream `end`
handler (set `done`, deliver any trailing-fragment records, then
`emitNextRecord`).
-/

structure Src where
  pending : List Nat
  future : List Nat
  done : Bool
  paused : Bool
  calls : List Bool
  deriving Repr, DecidableEq

structure MSt where
  srcs : List Src
  out : List (Nat × Nat)
  deriving Repr, DecidableEq

def bestOf (pos : Nat) (cur : Option (Nat × Nat)) : List (List Nat) → Option (Nat × Nat)
  | [] => cur
  | [] :: rest => bestOf (pos + 1) cur rest
  | (t :: _) :: rest =>
    match cur with
    | none => bestOf (pos + 1) (some (pos, t)) rest
    | some (j, tm) =>
      if tm > t then bestOf (pos + 1) (some (pos, t)) rest
      else bestOf (pos + 1) (some (j, tm)) rest

def selectMin (ls : List (List Nat)) : Option (Nat × Nat) := bestOf 0 none ls

def popHeadAt : Nat → List (List Nat) → List (List Nat)
  | _, [] => []
  | 0, l :: rest => l.tail :: rest
  | n + 1, l :: rest => l :: popHeadAt n rest

def lenTotal (ls : List (List Nat)) : Nat := (ls.map List.length).sum

def mergeFuel : Nat → List (List Nat) → List (Nat × Nat)
  | 0, _ => []
  | f + 1, ls =>
    match selectMin ls with
    | none => []
    | some (i, t) => (i, t) :: mergeFuel f (popHeadAt i ls)

def mergeCanon (ls : List (List Nat)) : List (Nat × Nat) :=
  mergeFuel (lenTotal ls + 1) ls

def lexLE (a b : Nat × Nat) : Prop := a.2 < b.2 ∨ (a.2 = b.2 ∧ a.1 ≤ b.1)

instance (a b : Nat × Nat) : Decidable (lexLE a b) := by unfold lexLE; infer_instance

def pendings (srcs : List Src) : List (List Nat) := srcs.map (·.pending)

def remainders (srcs : List Src) : List (List Nat) :=
  srcs.map (fun x => x.pending ++ x.future)

def ready (srcs : List Src) : Bool :=
  srcs.all (fun x => x.done || !(x.pending.isEmpty))

def adjustSrc (x : Src) : Src :=
  if x.done then x
  else if !(x.pending.isEmpty) then
    (if !x.paused then { x with paused := true, calls := true :: x.calls } else x)
  else
    (if x.paused then { x with paused := false, calls := false :: x.calls } else x)

def adjust (srcs : List Src) : List Src := srcs.map adjustSrc

def popPendingAt : Nat → List Src → List Src
  | _, [] => []
  | 0, x :: rest => { x with pending := x.pending.tail } :: rest
  | n + 1, x :: rest => x :: popPendingAt n rest

def pendTotal (s : MSt) : Nat := ((pendings s.srcs).map List.length).sum

def drainFuel : Nat → MSt → MSt
  | 0, s => s
  | f + 1, s =>
    if ready s.srcs = false then { s with srcs := adjust s.srcs }
    else
      match selectMin (pendings s.srcs) with
      | none => { s with srcs := adjust s.srcs }
      | some (i, t) =>
        drainFuel f { srcs := popPendingAt i s.srcs, out := s.out ++ [(i, t)] }

def drain (s : MSt) : MSt := drainFuel (pendTotal s + 1) s

inductive Ev where
  | deliver (i : Nat)
  | close (i : Nat)
  deriving Repr, DecidableEq

def applyDeliver (s : MSt) (i : Nat) (x : Src) : MSt :=
  match x.future with
  | [] => s
  | t :: rest =>
    let x2 := { x with pending := x.pending ++ [t], future := rest }
    drain { s with srcs := s.srcs.set i x2 }

def applyClose (s : MSt) (i : Nat) (x : Src) : MSt :=
  let x2 := { x with done := true, pending := x.pending ++ x.future, future := [] }
  drain { s with srcs := s.srcs.set i x2 }

def stepEv (s : MSt) : Ev → MSt
  | .deliver i => (s.srcs.get? i).elim s (applyDeliver s i)
  | .close i => (s.srcs.get? i).elim s (applyClose s i)

def initSrc (l : List Nat) : Src :=
  { pending := [], future := l, done := false, paused := false, calls := [] }

def initSched (inputs : List (List Nat)) : MSt :=
  { srcs := inputs.map initSrc, out := [] }

def runSched (inputs : List (List Nat)) (evs : List Ev) : MSt :=
  evs.foldl stepEv (initSched inputs)

def SortedSrcs (srcs : List Src) : Prop :=
  ∀ x ∈ srcs, List.Chain' (· ≤ ·) (x.pending ++ x.future)

def DoneClosed (srcs : List Src) : Prop :=
  ∀ x ∈ srcs, x.done = true → x.future = []

/-- The scheduler invariant: per-source queues are time-sorted, a done
source has delivered everything, the output plus the canonical merge of
what remains equals the canonical merge of the full inputs, and the
state is drained (the last `emitNextRecord` found nothing to emit). -/
def SchedInv (inputs : List (List Nat)) (s : MSt) : Prop :=
  SortedSrcs s.srcs ∧ DoneClosed s.srcs ∧
  s.out ++ mergeCanon (remainders s.srcs) = mergeCanon inputs ∧
  (ready s.srcs = false ∨ selectMin (pendings s.srcs) = none)

def Blocking (srcs : List Src) : Prop :=
  ∃ x ∈ srcs, x.done = false ∧ x.pending = []

/-- The pause/resume bookkeeping invariant: each source's trace of
underlying `stream.pause()` / `stream.resume()` calls alternates, and
the `paused` flag records whether the last call was a pause. -/
def PausedInv (srcs : List Src) : Prop :=
  ∀ x ∈ srcs, List.Chain' (· ≠ ·) x.calls ∧ (x.paused = true ↔ x.calls.head? = some true)

instance (srcs : List Src) : Decidable (Blocking srcs) := by
  unfold Blocking; infer_instance

/-! ## Definitions: JSON model (`JSON.parse`/`JSON.stringify`), classifier
(`handleLogLine`), filter (`filterRecord`), renderer state (`emitRecord`),
and the heap model for `objCopy` -/

/-- The JSON value model (`JSON.parse` result values). JSON numbers are
modelled as integers; none of the verified properties concern floating
point. -/
inductive JVal where
  | null
  | bool (b : Bool)
  | num (n : Int)
  | str (s : String)
  | arr (xs : List JVal)
  | obj (kvs : List (String × JVal))

def digitChar (d : Nat) : Char := Char.ofNat (48 + d)

def hexDigit (n : Nat) : Char :=
  if n < 10 then digitChar n else Char.ofNat (87 + n)

/-- Escaping of `JSON.stringify` for strings: quote, backslash, the short
control escapes, and `\u00xx` for the remaining control characters. -/
def escChar (c : Char) : List Char :=
  if c = '"' then ['\\', '"']
  else if c = '\\' then ['\\', '\\']
  else if c = '\x08' then ['\\', 'b']
  else if c = '\x0c' then ['\\', 'f']
  else if c = '\n' then ['\\', 'n']
  else if c = '\r' then ['\\', 'r']
  else if c = '\t' then ['\\', 't']
  else if c.toNat < 0x20 then
    ['\\', 'u', '0', '0', hexDigit (c.toNat / 16), hexDigit (c.toNat % 16)]
  else [c]

def escString : List Char → List Char
  | [] => []
  | c :: rest => escChar c ++ escString rest

def natCharsAux : Nat → Nat → List Char
  | 0, _ => []
  | f + 1, n => if n = 0 then [] else natCharsAux f (n / 10) ++ [digitChar (n % 10)]

/-- Decimal digits of a natural number (most significant first). -/
def natChars (n : Nat) : List Char := if n = 0 then ['0'] else natCharsAux n n

def intChars (n : Int) : List Char :=
  if n < 0 then '-' :: natChars n.natAbs else natChars n.natAbs

def quoteString (s : String) : List Char := '"' :: escString s.data ++ ['"']

mutual

/-- Compact `JSON.stringify(v)` over the model (`JSON.stringify(rec,
null, 0)` produces the same string). -/
def stringifyV : JVal → List Char
  | .null => 'n' :: 'u' :: 'l' :: 'l' :: []
  | .bool true => 't' :: 'r' :: 'u' :: 'e' :: []
  | .bool false => 'f' :: 'a' :: 'l' :: 's' :: 'e' :: []
  | .num n => intChars n
  | .str s => quoteString s
  | .arr xs => '[' :: stringifyArr xs ++ [']']
  | .obj kvs => '{' :: stringifyObj kvs ++ ['}']

def stringifyArr : List JVal → List Char
  | [] => []
  | [x] => stringifyV x
  | x :: y :: rest => stringifyV x ++ ',' :: stringifyArr (y :: rest)

def stringifyObj : List (String × JVal) → List Char
  | [] => []
  | [(k, v)] => quoteString k ++ ':' :: stringifyV v
  | (k, v) :: y :: rest =>
    quoteString k ++ ':' :: stringifyV v ++ ',' :: stringifyObj (y :: rest)

end

def isDigitC (c : Char) : Bool := 48 ≤ c.toNat && c.toNat ≤ 57

def parseDigitsAcc (acc : Nat) : List Char → Nat × List Char
  | [] => (acc, [])
  | c :: rest =>
    if isDigitC c then parseDigitsAcc (acc * 10 + (c.toNat - 48)) rest
    else (acc, c :: rest)

/-- Parse a JSON natural-number literal (one or more digits, no redundant
leading zero). -/
def parseNatPart : List Char → Option (Nat × List Char)
  | [] => none
  | c :: rest =>
    if isDigitC c then
      if c = '0' && (rest.head?.elim false isDigitC) then none
      else some (parseDigitsAcc (c.toNat - 48) rest)
    else none

def isJsonWs (c : Char) : Bool := c = ' ' || c = '\t' || c = '\n' || c = '\r'

def skipWs : List Char → List Char
  | [] => []
  | c :: rest => if isJsonWs c then skipWs rest else c :: rest

def parseHexDigit (c : Char) : Option Nat :=
  if 48 ≤ c.toNat && c.toNat ≤ 57 then some (c.toNat - 48)
  else if 97 ≤ c.toNat && c.toNat ≤ 102 then some (c.toNat - 87)
  else if 65 ≤ c.toNat && c.toNat ≤ 70 then some (c.toNat - 55)
  else none

/-- Body of a JSON string literal after the opening quote: returns the
decoded characters and the remaining input after the closing quote.  A
`\uXXXX` escape is accepted when it denotes a Unicode scalar value
(surrogate pairs are outside the scalar-value string model). -/
def parseStringBody : List Char → Option (List Char × List Char)
  | [] => none
  | c :: rest =>
    if c = '"' then some ([], rest)
    else if c = '\\' then
      match rest with
      | [] => none
      | e :: rest2 =>
        if e = '"' then (parseStringBody rest2).map (fun p => ('"' :: p.1, p.2))
        else if e = '\\' then (parseStringBody rest2).map (fun p => ('\\' :: p.1, p.2))
        else if e = '/' then (parseStringBody rest2).map (fun p => ('/' :: p.1, p.2))
        else if e = 'b' then (parseStringBody rest2).map (fun p => ('\x08' :: p.1, p.2))
        else if e = 'f' then (parseStringBody rest2).map (fun p => ('\x0c' :: p.1, p.2))
        else if e = 'n' then (parseStringBody rest2).map (fun p => ('\n' :: p.1, p.2))
        else if e = 'r' then (parseStringBody rest2).map (fun p => ('\r' :: p.1, p.2))
        else if e = 't' then (parseStringBody rest2).map (fun p => ('\t' :: p.1, p.2))
        else if e = 'u' then
          match rest2 with
          | h1 :: h2 :: h3 :: h4 :: rest3 =>
            match parseHexDigit h1, parseHexDigit h2, parseHexDigit h3, parseHexDigit h4 with
            | some d1, some d2, some d3, some d4 =>
              let n := ((d1 * 16 + d2) * 16 + d3) * 16 + d4
              if n.isValidChar then
                (parseStringBody rest3).map (fun p => (Char.ofNat n :: p.1, p.2))
              else none
            | _, _, _, _ => none
          | _ => none
        else none
    else if c.toNat < 0x20 then none
    else (parseStringBody rest).map (fun p => (c :: p.1, p.2))

/-- JavaScript object-assignment semantics on the association-list
model: replace the binding in place when the key exists, else append. -/
def objSet : List (String × JVal) → String → JVal → List (String × JVal)
  | [], k, v => [(k, v)]
  | (k2, v2) :: rest, k, v =>
    if k2 = k then (k2, v) :: rest else (k2, v2) :: objSet rest k v

/-- Duplicate keys in a JSON object literal collapse JS-style: the last
occurrence wins, at the position of the first. -/
def dedupObjAux (acc : List (String × JVal)) : List (String × JVal) → List (String × JVal)
  | [] => acc
  | (k, v) :: rest => dedupObjAux (objSet acc k v) rest

def dedupObj (kvs : List (String × JVal)) : List (String × JVal) := dedupObjAux [] kvs

mutual

/-- Fuel-indexed JSON parser: one value, leading whitespace allowed,
returning the remaining input. -/
def parseVal : Nat → List Char → Option (JVal × List Char)
  | 0, _ => none
  | f + 1, l =>
    match skipWs l with
    | [] => none
    | c :: rest =>
      if isDigitC c then
        (parseNatPart (c :: rest)).map (fun p => (JVal.num (p.1 : Int), p.2))
      else
        match c :: rest with
        | 'n' :: 'u' :: 'l' :: 'l' :: rest2 => some (.null, rest2)
        | 't' :: 'r' :: 'u' :: 'e' :: rest2 => some (.bool true, rest2)
        | 'f' :: 'a' :: 'l' :: 's' :: 'e' :: rest2 => some (.bool false, rest2)
        | '"' :: rest2 =>
          (parseStringBody rest2).map (fun p => (.str (String.mk p.1), p.2))
        | '{' :: rest2 =>
          match skipWs rest2 with
          | '}' :: rest3 => some (.obj [], rest3)
          | l2 => (parseMembers f l2).map (fun p => (.obj (dedupObj p.1), p.2))
        | '[' :: rest2 =>
          match skipWs rest2 with
          | ']' :: rest3 => some (.arr [], rest3)
          | l2 => (parseElems f l2).map (fun p => (.arr p.1, p.2))
        | '-' :: rest2 =>
          (parseNatPart rest2).map (fun p => (.num (-(p.1 : Int)), p.2))
        | _ => none

/-- One or more `"key": value` members, expecting the opening quote of
the first key immediately (whitespace already skipped), through the
closing `}`. -/
def parseMembers : Nat → List Char → Option (List (String × JVal) × List Char)
  | 0, _ => none
  | f + 1, l =>
    match l with
    | '"' :: rest =>
      match parseStringBody rest with
      | none => none
      | some (kcs, r1) =>
        match skipWs r1 with
        | ':' :: r2 =>
          match parseVal f r2 with
          | none => none
          | some (v, r3) =>
            match skipWs r3 with
            | ',' :: r4 =>
              (parseMembers f (skipWs r4)).map
                (fun p => ((String.mk kcs, v) :: p.1, p.2))
            | '}' :: r4 => some ([(String.mk kcs, v)], r4)
            | _ => none
        | _ => none
    | _ => none

/-- One or more array elements through the closing `]`. -/
def parseElems : Nat → List Char → Option (List JVal × List Char)
  | 0, _ => none
  | f + 1, l =>
    match parseVal f l with
    | none => none
    | some (v, r1) =>
      match skipWs r1 with
      | ',' :: r2 => (parseElems f r2).map (fun p => (v :: p.1, p.2))
      | ']' :: r2 => some ([v], r2)
      | _ => none

end

/-- Model of `JSON.parse`: parse one value and require only
whitespace to remain. -/
def jsonParse (s : String) : Option JVal :=
  match parseVal (s.length + 1) s.data with
  | some (v, rest) => if skipWs rest = [] then some v else none
  | none => none

def keysNodupB : List (String × JVal) → Bool
  | [] => true
  | (k, _) :: rest => !((rest.map Prod.fst).contains k) && keysNodupB rest

mutual

/-- Well-formedness for the round-trip: every object in the value has
pairwise-distinct keys (JS objects cannot hold duplicates). -/
def wfJ : JVal → Bool
  | .null => true
  | .bool _ => true
  | .num _ => true
  | .str _ => true
  | .arr xs => wfArr xs
  | .obj kvs => keysNodupB kvs && wfObj kvs

def wfArr : List JVal → Bool
  | [] => true
  | x :: rest => wfJ x && wfArr rest

def wfObj : List (String × JVal) → Bool
  | [] => true
  | (_, v) :: rest => wfJ v && wfObj rest

end

mutual

/-- Parser-fuel cost of a value. -/
def Jsize : JVal → Nat
  | .null => 1
  | .bool _ => 1
  | .num _ => 1
  | .str _ => 1
  | .arr xs => 1 + JsizeArr xs
  | .obj kvs => 1 + JsizeObj kvs

def JsizeArr : List JVal → Nat
  | [] => 0
  | x :: rest => 1 + Jsize x + JsizeArr rest

def JsizeObj : List (String × JVal) → Nat
  | [] => 0
  | (_, v) :: rest => 1 + Jsize v + JsizeObj rest

end

/-- A parsed log record: the insertion-ordered fields of the JSON object. -/
abbrev Rec : Type := List (String × JVal)

/-- JS property read `obj[k]` on the association-list model
(`none` is JS `undefined`). -/
def oget : List (String × JVal) → String → Option JVal
  | [], _ => none
  | (k2, v) :: rest, k => if k2 = k then some v else oget rest k

/-- JS `delete obj[k]`: the key is removed, the order of the remaining
keys is preserved. -/
def odel (kvs : List (String × JVal)) (k : String) : List (String × JVal) :=
  kvs.filter (fun p => p.1 != k)

/-- JS truthiness of a JSON value. -/
def truthy : JVal → Bool
  | .null => false
  | .bool b => b
  | .num n => n != 0
  | .str s => s != ""
  | .arr _ => true
  | .obj _ => true

def truthyOpt : Option JVal → Bool
  | none => false
  | some v => truthy v

/-- Test `typeof v === 'object'` combined with the surrounding truthiness
guards in the source always means: a non-null object or an array. -/
def jsIsObject : JVal → Bool
  | .obj _ => true
  | .arr _ => true
  | .null => true
  | _ => false

/-- Own enumerable properties, as listed by `Object.keys(v)` and read by `v[k]`: object fields, or
array indices. Primitives have none. -/
def jvalEntries : JVal → List (String × JVal)
  | .obj kvs => kvs
  | .arr xs => (xs.enum.map fun p => (String.mk (natChars p.1), p.2))
  | _ => []

/-- Nested JS property read `v[k]`. -/
def jsGet (v : JVal) (k : String) : Option JVal := oget (jvalEntries v) k

/-- Validation `isValidRecord` (bunyan.mjs 1751): each of the seven well-known
fields must be `!= null` (present and neither null nor undefined). -/
def isValidRecord (rec : Rec) : Bool :=
  !(match oget rec "v" with | none => true | some .null => true | some _ => false) &&
  !(match oget rec "level" with | none => true | some .null => true | some _ => false) &&
  !(match oget rec "name" with | none => true | some .null => true | some _ => false) &&
  !(match oget rec "hostname" with | none => true | some .null => true | some _ => false) &&
  !(match oget rec "pid" with | none => true | some .null => true | some _ => false) &&
  !(match oget rec "time" with | none => true | some .null => true | some _ => false) &&
  !(match oget rec "msg" with | none => true | some .null => true | some _ => false)

/-- The three classification outcomes of `handleLogLine` for one line. -/
inductive Outcome where
  | passThrough
  | invalid
  | valid (rec : Rec)

/-- Classification logic of `handleLogLine` (bunyan.mjs 1780): an empty
line or a line whose FIRST character is not `{` is passed through raw; a
line starting with `{` that fails `JSON.parse` or yields an invalid
record is invalid; otherwise the parsed record is valid. -/
def classify (line : String) : Outcome :=
  if line.data = [] then .passThrough
  else if line.data.head? ≠ some '{' then .passThrough
  else match jsonParse line with
    | none => .invalid
    | some (.obj kvs) => if isValidRecord kvs then .valid kvs else .invalid
    | some _ => .invalid

/-- The spec's classifier, word for word: pass-through when the line is
empty or its first NON-SPACE character is not `{` (compare `classify`,
which tests the first character). -/
def specClassify (line : String) : Outcome :=
  if line.data = [] then .passThrough
  else if (line.data.dropWhile (fun c => c = ' ')).head? ≠ some '{' then .passThrough
  else match jsonParse line with
    | none => .invalid
    | some (.obj kvs) => if isValidRecord kvs then .valid kvs else .invalid
    | some _ => .invalid

/-- Options relevant to `filterRecord`: the `-l` minimum level and the
`-c` predicate functions (the default `condFuncs` path; predicates can
raise, modelled with `Except`). -/
structure FilterOpts where
  level : Option Int
  condFuncs : Option (List (Rec → Except String Bool))

/-- The `opts.level && rec.level < opts.level` gate of `filterRecord`
(bunyan.mjs 1400) for the numeric levels this CLI works with. -/
def levelDrops (rec : Rec) (lvlOpt : Option Int) : Bool :=
  match lvlOpt, oget rec "level" with
  | some lvl, some (.num m) => decide (m < lvl)
  | some _, _ => false
  | none, _ => false

/-- The `condFuncs` loop of `filterRecord` (bunyan.mjs 1406): each
predicate is called (with a shallow copy of the record as `this`, which
holds the same top-level fields — the heap-level effects of the copy are
modelled separately); the first falsy result returns false; a raised
error is NOT caught. -/
def runConds (rec : Rec) : List (Rec → Except String Bool) → Except String Bool
  | [] => Except.ok true
  | f :: rest => do
    let pass ← f rec
    if pass then runConds rec rest else Except.ok false

/-- Filter `filterRecord` (bunyan.mjs 1398), on the default `condFuncs` path. -/
def filterRecord (rec : Rec) (opts : FilterOpts) : Except String Bool :=
  if levelDrops rec opts.level then Except.ok false
  else match opts.condFuncs with
    | some fns => runConds rec fns
    | none => Except.ok true

/-- One line through `handleLogLine` (non-strict): pass-through and
invalid lines are emitted raw, valid records go through the filter. The
result records whether anything was emitted; a predicate error
propagates (nothing in `handleLogLine` catches it). -/
def handleLine (opts : FilterOpts) (line : String) : Except String Bool :=
  match classify line with
  | .passThrough => Except.ok true
  | .invalid => Except.ok true
  | .valid rec => filterRecord rec opts

/-- A run of the pipeline over a list of lines: an uncaught error from
any line aborts the whole run. -/
def runLines (opts : FilterOpts) : List String → Except String Unit
  | [] => Except.ok ()
  | l :: rest => do
    let _ ← handleLine opts l
    runLines opts rest

/-- Process exit code: an error escaping the pipeline reaches the
`uncaughtException` handler (bunyan.mjs 2361), which prints crash
details and calls `process.exit(1)`. -/
def cliExitCode (opts : FilterOpts) (lines : List String) : Nat :=
  match runLines opts lines with
  | Except.ok _ => 0
  | Except.error _ => 1

/-- Re-exposure loops such as `Object.keys(req).forEach(function (k) {
rec['req.' + k] = req[k] })` (bunyan.mjs 1953): each remaining subfield
is assigned to the record under a prefixed key. -/
def reexpose (pre : String) (entries : List (String × JVal)) (base : Rec) : Rec :=
  entries.foldl (fun acc p => objSet acc (pre ++ "." ++ p.1) p.2) base

/-- The unconditional `delete rec.X` cascade of the long/short branch of
`emitRecord` (bunyan.mjs 1844-1914): v, time, name, component, pid,
level, src, hostname, req_id, msg. -/
def stripWellKnown (rec : Rec) : Rec :=
  odel (odel (odel (odel (odel (odel (odel (odel (odel (odel
    rec "v") "time") "name") "component") "pid") "level") "src") "hostname")
    "req_id") "msg"

/-- Subfields of `req` that survive its block (bunyan.mjs 1916-1956):
url, method, httpVersion, headers and trailers are deleted
unconditionally, body only when truthy. -/
def reqEntriesAfterDeletes (reqv : JVal) : List (String × JVal) :=
  let e := jvalEntries reqv
  let delBody := truthyOpt (oget e "body")
  e.filter (fun p => !(p.1 == "url" || p.1 == "method" || p.1 == "httpVersion" ||
    p.1 == "headers" || p.1 == "trailers" || (p.1 == "body" && delBody)))

/-- Subfields of `client_req` that survive its block (bunyan.mjs
1958-1992): headers, method, url, httpVersion deleted unconditionally,
body only when truthy (trailers are NOT deleted here). -/
def clientReqEntriesAfterDeletes (v : JVal) : List (String × JVal) :=
  let e := jvalEntries v
  let delBody := truthyOpt (oget e "body")
  e.filter (fun p => !(p.1 == "headers" || p.1 == "method" || p.1 == "url" ||
    p.1 == "httpVersion" || (p.1 == "body" && delBody)))

/-- Accepted header types `headerTypes[typeof (x)]` (bunyan.mjs 2007): string or object. -/
def headerTypeOk : JVal → Bool
  | .str _ => true
  | .obj _ => true
  | .arr _ => true
  | .null => true
  | _ => false

/-- Subfields of `res`/`client_res` that survive `_res` (bunyan.mjs
1994-2062): `header` is deleted when truthy of an accepted type,
otherwise `headers` is (under the same test); `statusCode` and `trailer`
unconditionally; `body` whenever it is present (`!== undefined`). -/
def resEntriesAfterDeletes (v : JVal) : List (String × JVal) :=
  let e := jvalEntries v
  let hOk := truthyOpt (oget e "header") &&
    (match oget e "header" with | some hv => headerTypeOk hv | none => false)
  let hsOk := truthyOpt (oget e "headers") &&
    (match oget e "headers" with | some hv => headerTypeOk hv | none => false)
  let delBody := (oget e "body").isSome
  e.filter (fun p => !((p.1 == "header" && hOk) ||
    (p.1 == "headers" && !hOk && hsOk) ||
    p.1 == "statusCode" || (p.1 == "body" && delBody) || p.1 == "trailer"))

/-- Subfields of `err` that survive its block (bunyan.mjs 2073-2089):
message, name and stack are deleted. -/
def errEntries (v : JVal) : List (String × JVal) :=
  (jvalEntries v).filter (fun p => !(p.1 == "message" || p.1 == "name" || p.1 == "stack"))

/-- Effect of the `rec.req` block on the record. -/
def applyReqBlock (rec : Rec) : Rec :=
  match oget rec "req" with
  | some reqv =>
    if truthy reqv && jsIsObject reqv then
      reexpose "req" (reqEntriesAfterDeletes reqv) (odel rec "req")
    else rec
  | none => rec

/-- Effect of the `rec.client_req` block on the record. -/
def applyClientReqBlock (rec : Rec) : Rec :=
  match oget rec "client_req" with
  | some v =>
    if truthy v && jsIsObject v then
      reexpose "client_req" (clientReqEntriesAfterDeletes v) (odel rec "client_req")
    else rec
  | none => rec

/-- Effect of `_res(rec[key]); delete rec[key]` for key `res` or
`client_res`. `_res` always re-exposes under the prefix `res.`
(bunyan.mjs 2059), even when invoked on `client_res`. -/
def applyResBlock (key : String) (rec : Rec) : Rec :=
  match oget rec key with
  | some v =>
    if truthy v && jsIsObject v then
      reexpose "res" (resEntriesAfterDeletes v) (odel rec key)
    else rec
  | none => rec

/-- Effect of the `rec.err` block: only runs when `rec.err` and
`rec.err.stack` are both truthy. -/
def applyErrBlock (rec : Rec) : Rec :=
  match oget rec "err" with
  | some errv =>
    if truthy errv && truthyOpt (jsGet errv "stack") then
      reexpose "err" (errEntries errv) (odel rec "err")
    else rec
  | none => rec

/-- The complete field relocation performed on `rec` by the long/short
branch of `emitRecord`, in source order. -/
def longStateCore (rec : Rec) : Rec :=
  applyErrBlock (applyResBlock "client_res" (applyResBlock "res"
    (applyClientReqBlock (applyReqBlock (stripWellKnown rec)))))

def timeIsStr (rec : Rec) : Bool :=
  match oget rec "time" with | some (.str _) => true | _ => false

def msgIsStr (rec : Rec) : Bool :=
  match oget rec "msg" with | some (.str _) => true | _ => false

/-- Final state of `rec` after the long (`short = false`) or short
branch of `emitRecord`: invalid records are emitted raw untouched; in
short mode `rec.time.substr(11)` and in both modes
`rec.msg.indexOf('\n')` are method calls that throw a TypeError when the
field is not a string; otherwise the deletions and re-exposures run. -/
def longState (short : Bool) (rec : Rec) : Except String Rec :=
  if !(isValidRecord rec) then Except.ok rec
  else if short && !(timeIsStr rec) then
    Except.error "TypeError: rec.time.substr is not a function"
  else if !(msgIsStr rec) then
    Except.error "TypeError: rec.msg.indexOf is not a function"
  else Except.ok (longStateCore rec)

/-- The output modes of `emitRecord` (bunyan.mjs 1825). -/
inductive OutputMode where
  | long
  | short
  | json
  | bunyan
  | inspect
  | simple

/-- State of `rec` after `emitRecord` for each mode: only the long and
short branches assign to or delete from `rec`; the json, bunyan, inspect
and simple branches only read it. -/
def renderState (m : OutputMode) (rec : Rec) : Except String Rec :=
  match m with
  | .long => longState false rec
  | .short => longState true rec
  | .json => Except.ok rec
  | .bunyan => Except.ok rec
  | .inspect => Except.ok rec
  | .simple => Except.ok rec

/-- The OM_BUNYAN emission (bunyan.mjs 2141):
`JSON.stringify(rec, null, 0) + '\n'` — indent 0 is the compact form. -/
def renderBunyan (rec : Rec) : String :=
  String.mk (stringifyV (.obj rec) ++ ['\n'])

def sp (n : Nat) : List Char := List.replicate n ' '

mutual

/-- Pretty form `JSON.stringify(v, null, 2)`: two-space-indented pretty printing,
`ind` is the current indentation of the enclosing value. -/
def stringifyP (ind : Nat) : JVal → List Char
  | .null => 'n' :: 'u' :: 'l' :: 'l' :: []
  | .bool true => 't' :: 'r' :: 'u' :: 'e' :: []
  | .bool false => 'f' :: 'a' :: 'l' :: 's' :: 'e' :: []
  | .num n => intChars n
  | .str s => quoteString s
  | .arr [] => '[' :: ']' :: []
  | .arr (x :: xs) =>
    '[' :: '\n' :: sp (ind + 2) ++ stringifyPArr (ind + 2) (x :: xs) ++
      '\n' :: sp ind ++ [']']
  | .obj [] => '{' :: '}' :: []
  | .obj (y :: ys) =>
    '{' :: '\n' :: sp (ind + 2) ++ stringifyPObj (ind + 2) (y :: ys) ++
      '\n' :: sp ind ++ ['}']

def stringifyPArr (ind : Nat) : List JVal → List Char
  | [] => []
  | [x] => stringifyP ind x
  | x :: y :: rest =>
    stringifyP ind x ++ ',' :: '\n' :: sp ind ++ stringifyPArr ind (y :: rest)

def stringifyPObj (ind : Nat) : List (String × JVal) → List Char
  | [] => []
  | [(k, v)] => quoteString k ++ ':' :: ' ' :: stringifyP ind v
  | (k, v) :: y :: rest =>
    quoteString k ++ ':' :: ' ' :: stringifyP ind v ++
      ',' :: '\n' :: sp ind ++ stringifyPObj ind (y :: rest)

end

/-- Split on `/\r?\n/` as used by `indent` (bunyan.mjs 1291). -/
def splitRN : List Char → List (List Char)
  | [] => [[]]
  | '\r' :: '\n' :: rest => [] :: splitRN rest
  | '\n' :: rest => [] :: splitRN rest
  | c :: rest =>
    match splitRN rest with
    | [] => [[c]]
    | h :: t => (c :: h) :: t

def joinIndented : List (List Char) → List Char
  | [] => []
  | [x] => x
  | x :: y :: t => x ++ '\n' :: ' ' :: ' ' :: ' ' :: ' ' :: joinIndented (y :: t)

/-- Indentation helper `indent(s)` (bunyan.mjs 1291):
`'    ' + s.split(/\r?\n/).join('\n    ')`. -/
def indentS (s : String) : String :=
  String.mk (' ' :: ' ' :: ' ' :: ' ' :: joinIndented (splitRN s.data))

/-- Where one leftover field line ends up. -/
inductive Dest where
  | details (s : String)
  | extras (s : String)

/-- The string the leftover loop works on: the value itself when it is a
string, otherwise `JSON.stringify(value, null, 2)`. -/
def leftStr : JVal → String
  | .str s => s
  | v => String.mk (stringifyP 0 v)

def jvalIsStr : JVal → Bool
  | .str _ => true
  | _ => false

/-- One iteration of the leftover-fields loop of `emitRecord`
(bunyan.mjs 2092-2110): multi-line or >50-char values go to details
(indented `key: value`); remaining string values containing a SPACE or
empty are JSON-quoted in extras; everything else is `key=value`. -/
def leftoverEntry (key : String) (value : JVal) : Dest :=
  let sval := leftStr value
  if sval.data.contains '\n' || decide (sval.length > 50) then
    .details (indentS (key ++ ": " ++ sval))
  else if jvalIsStr value && (sval.data.contains ' ' || decide (sval.length = 0)) then
    .extras (key ++ "=" ++ String.mk (quoteString sval))
  else
    .extras (key ++ "=" ++ sval)

/-- The spec's sentence for the leftover loop, word for word: the value
is JSON-quoted when it is a string that contains WHITESPACE (any of
space, tab, CR, LF) or is empty. Compare `leftoverEntry`, which tests
only for a space character. -/
def specLeftoverEntry (key : String) (value : JVal) : Dest :=
  let sval := leftStr value
  if sval.data.contains '\n' || decide (sval.length > 50) then
    .details (indentS (key ++ ": " ++ sval))
  else if jvalIsStr value && (sval.data.any isJsonWs || decide (sval.length = 0)) then
    .extras (key ++ "=" ++ String.mk (quoteString sval))
  else
    .extras (key ++ "=" ++ sval)

/-- Heap values for the shallow-copy model: primitives, or a reference
to a heap object. -/
inductive HVal where
  | hnull
  | hbool (b : Bool)
  | hnum (n : Int)
  | hstr (s : String)
  | href (a : Nat)
deriving DecidableEq

/-- A heap object: insertion-ordered own properties. -/
abbrev HObj : Type := List (String × HVal)

/-- The heap: objects addressed by index; allocation appends. -/
abbrev Heap : Type := List HObj

def hGetObj (h : Heap) (a : Nat) : HObj := (List.get? h a).getD []

def objSetH : HObj → String → HVal → HObj
  | [], k, v => [(k, v)]
  | (k2, v2) :: rest, k, v =>
    if k2 = k then (k2, v) :: rest else (k2, v2) :: objSetH rest k v

def ogetH : HObj → String → Option HVal
  | [], _ => none
  | (k2, v) :: rest, k => if k2 = k then some v else ogetH rest k

def hGetField (h : Heap) (a : Nat) (k : String) : Option HVal :=
  ogetH (hGetObj h a) k

/-- Assignment `obj[k] = v` on the heap object at address `a`. -/
def hSetField (h : Heap) (a : Nat) (k : String) (v : HVal) : Heap :=
  h.set a (objSetH (hGetObj h a) k v)

/-- Shallow copy `objCopy` (bunyan.mjs 1295) applied to the record object at `a`:
allocates a fresh object holding the same top-level properties — nested
references are shared, not copied. -/
def objCopyH (h : Heap) (a : Nat) : Heap × Nat :=
  (h ++ [hGetObj h a], h.length)

/-- A sequence of top-level assignments `this[k] = v` performed on the
object at `a`. -/
def runWrites : Heap → Nat → List (String × HVal) → Heap
  | h, _, [] => h
  | h, a, (k, v) :: rest => runWrites (hSetField h a k v) a rest

/-- Predicate invocation of `filterRecord` (bunyan.mjs 1404-1407): the
predicate runs with `this = objCopy(rec)`; its top-level assignments are
applied to the fresh copy. -/
def predCallOnCopy (h : Heap) (reca : Nat) (writes : List (String × HVal)) : Heap :=
  let p := objCopyH h reca
  runWrites p.1 p.2 writes

end Bunyan

namespace Bunyan

/-! ## Theorems: line reassembler -/

theorem splitLines_ne_nil (l : List Char) : splitLines l ≠ [] := by
  induction l using splitLines.induct with
  | case1 => simp [splitLines]
  | case2 rest ih => simp [splitLines]
  | case3 rest ih => simp [splitLines]
  | case4 c rest h1 h2 h3 ih => simp [splitLines, h3]
  | case5 c rest h1 h2 p ps h3 ih =>
    unfold splitLines
    split
    · simp
    · simp
    · simp
    · split <;> simp

/-- Reduction of `splitLines` on a character that does not begin a
`\r\n` or `\n` separator. -/
theorem splitLines_cons_fall (a : Char) (xs : List Char) (h1 : a ≠ '\n')
    (h2 : ¬(a = '\r' ∧ xs.head? = some '\n')) :
    splitLines (a :: xs) = (a :: (splitLines xs).headD []) :: (splitLines xs).tail := by
  rw [splitLines.eq_def]
  split
  · rename_i heq; exact absurd heq (by simp)
  · rename_i rest heq
    injection heq with e1 e2
    exact absurd ⟨e1, by rw [e2]; rfl⟩ h2
  · rename_i rest heq
    injection heq with e1 e2
    exact absurd e1 h1
  · rename_i c rest hna hnr heq
    injection heq with e1 e2
    subst e1; subst e2
    cases h3 : splitLines xs with
    | nil => exact absurd h3 (splitLines_ne_nil xs)
    | cons p ps => simp

theorem not_crlf_of_fall {c : Char} {rest : List Char}
    (h1 : ∀ (rest_1 : List Char), c = '\r' → rest = '\n' :: rest_1 → False) :
    ¬(c = '\r' ∧ rest.head? = some '\n') := by
  rintro ⟨e, hh⟩
  cases rest with
  | nil => simp at hh
  | cons b r => simp at hh; exact h1 r e (by rw [hh])

theorem splitLines_singleton (l : List Char) (p : List Char)
    (h : splitLines l = [p]) : p = l := by
  induction l using splitLines.induct generalizing p with
  | case1 => simp [splitLines] at h; simp [h]
  | case2 rest ih =>
    rw [show splitLines ('\r' :: '\n' :: rest) = [] :: splitLines rest from rfl] at h
    have := splitLines_ne_nil rest
    cases hs : splitLines rest <;> simp_all
  | case3 rest ih =>
    rw [show splitLines ('\n' :: rest) = [] :: splitLines rest from rfl] at h
    have := splitLines_ne_nil rest
    cases hs : splitLines rest <;> simp_all
  | case4 c rest h1 h2 h3 ih => exact absurd h3 (splitLines_ne_nil rest)
  | case5 c rest h1 h2 q qs h3 ih =>
    rw [splitLines_cons_fall c rest (fun e => h2 e) (not_crlf_of_fall h1), h3] at h
    simp only [List.headD_cons, List.tail_cons] at h
    injection h with e1 e2
    have : q = rest := ih q (by rw [h3, e2])
    rw [← e1, this]

theorem splitLines_no_newline (l : List Char) (p : List Char)
    (hp : p ∈ splitLines l) : '\n' ∉ p := by
  induction l using splitLines.induct generalizing p with
  | case1 => simp [splitLines] at hp; simp [hp]
  | case2 rest ih =>
    rw [show splitLines ('\r' :: '\n' :: rest) = [] :: splitLines rest from rfl] at hp
    rcases List.mem_cons.mp hp with h | h
    · simp [h]
    · exact ih p h
  | case3 rest ih =>
    rw [show splitLines ('\n' :: rest) = [] :: splitLines rest from rfl] at hp
    rcases List.mem_cons.mp hp with h | h
    · simp [h]
    · exact ih p h
  | case4 c rest h1 h2 h3 ih => exact absurd h3 (splitLines_ne_nil rest)
  | case5 c rest h1 h2 q qs h3 ih =>
    rw [splitLines_cons_fall c rest (fun e => h2 e) (not_crlf_of_fall h1), h3] at hp
    simp only [List.headD_cons, List.tail_cons] at hp
    rcases List.mem_cons.mp hp with h | h
    · subst h
      intro hmem
      rcases List.mem_cons.mp hmem with h | h
      · exact h2 h.symm
      · exact ih q (by rw [h3]; exact List.mem_cons_self q qs) h
    · exact ih p (by rw [h3]; exact List.mem_cons_of_mem q h)

/-- Re-splitting: appending more text only re-examines the (unterminated)
last piece of the split; the earlier pieces are final. -/
theorem splitLines_append_last (T c : List Char) :
    splitLines (T ++ c) =
      (splitLines T).dropLast ++ splitLines ((splitLines T).getLastD [] ++ c) := by
  induction T using splitLines.induct with
  | case1 => simp [splitLines]
  | case2 rest ih =>
    have hne := splitLines_ne_nil rest
    rw [show ('\r' :: '\n' :: rest) ++ c = '\r' :: '\n' :: (rest ++ c) from rfl,
      show splitLines ('\r' :: '\n' :: (rest ++ c)) = [] :: splitLines (rest ++ c) from rfl,
      show splitLines ('\r' :: '\n' :: rest) = [] :: splitLines rest from rfl,
      List.dropLast_cons_of_ne_nil hne, ih]
    cases hs : splitLines rest with
    | nil => exact absurd hs hne
    | cons p ps => simp
  | case3 rest ih =>
    have hne := splitLines_ne_nil rest
    rw [show ('\n' :: rest) ++ c = '\n' :: (rest ++ c) from rfl,
      show splitLines ('\n' :: (rest ++ c)) = [] :: splitLines (rest ++ c) from rfl,
      show splitLines ('\n' :: rest) = [] :: splitLines rest from rfl,
      List.dropLast_cons_of_ne_nil hne, ih]
    cases hs : splitLines rest with
    | nil => exact absurd hs hne
    | cons p ps => simp
  | case4 c0 rest h1 h2 h3 ih => exact absurd h3 (splitLines_ne_nil rest)
  | case5 c0 rest h1 h2 q qs h3 ih =>
    rw [splitLines_cons_fall c0 rest (fun e => h2 e) (not_crlf_of_fall h1), h3]
    simp only [List.headD_cons, List.tail_cons]
    cases qs with
    | nil =>
      have hq : q = rest := splitLines_singleton rest q h3
      subst hq
      simp
    | cons q2 qs2 =>
      have hrest_ne : rest ≠ [] := by
        intro h; rw [h] at h3; simp [splitLines] at h3
      obtain ⟨r, rs, hr⟩ := List.exists_cons_of_ne_nil hrest_ne
      have hfall2 : ¬(c0 = '\r' ∧ (rest ++ c).head? = some '\n') := by
        rintro ⟨e, hh⟩
        rw [hr] at hh
        simp at hh
        exact h1 rs e (by rw [hr, hh])
      rw [show (c0 :: rest) ++ c = c0 :: (rest ++ c) from rfl,
        splitLines_cons_fall c0 (rest ++ c) (fun e => h2 e) hfall2, ih, h3]
      simp

theorem getLastD_cons_ne {α : Type} (a : α) (l : List α) (d : α) (h : l ≠ []) :
    (a :: l).getLastD d = l.getLastD d := by
  cases l with
  | nil => exact absurd rfl h
  | cons b r => simp [List.getLastD_cons]

theorem getLast?_cons_ne {α : Type} (a : α) (l : List α) (h : l ≠ []) :
    (a :: l).getLast? = l.getLast? := by
  cases l with
  | nil => exact absurd rfl h
  | cons b r => rw [List.getLast?_cons_cons]

/-- Prepending a separator-free fragment to a chunk only extends the
chunk's first piece, provided the junction does not create a `\r\n`. -/
theorem splitLines_prepend (l c : List Char) (hnl : '\n' ∉ l)
    (hcr : ¬(l.getLast? = some '\r' ∧ c.head? = some '\n')) :
    splitLines (l ++ c) = (l ++ (splitLines c).headD []) :: (splitLines c).tail := by
  induction l with
  | nil =>
    cases hs : splitLines c with
    | nil => exact absurd hs (splitLines_ne_nil c)
    | cons p ps => simp [hs]
  | cons a l2 ih =>
    have ha : a ≠ '\n' := by intro h; exact hnl (h ▸ List.mem_cons_self a l2)
    have hnl2 : '\n' ∉ l2 := fun h => hnl (List.mem_cons_of_mem a h)
    have hfall : ¬(a = '\r' ∧ (l2 ++ c).head? = some '\n') := by
      rintro ⟨e, hh⟩
      cases l2 with
      | nil =>
        simp at hh
        exact hcr ⟨by simp [e], hh⟩
      | cons b r =>
        simp at hh
        exact hnl (by rw [← hh] at hnl ⊢; exact List.mem_cons_of_mem a (List.mem_cons_self b r))
    have h2' : ¬(l2.getLast? = some '\r' ∧ c.head? = some '\n') := by
      rintro ⟨e, hh⟩
      apply hcr
      refine ⟨?_, hh⟩
      cases l2 with
      | nil => simp at e
      | cons b r => rw [getLast?_cons_ne a (b :: r) (by simp)]; exact e
    rw [show (a :: l2) ++ c = a :: (l2 ++ c) from rfl,
      splitLines_cons_fall a (l2 ++ c) ha hfall, ih hnl2 h2']
    simp

/-- The buffered trailing fragment ends with `'\r'` exactly when the text
seen so far does. -/
theorem splitLines_last_cr (T : List Char) :
    ((splitLines T).getLastD []).getLast? = some '\r' ↔ T.getLast? = some '\r' := by
  induction T using splitLines.induct with
  | case1 => simp [splitLines]
  | case2 rest ih =>
    rw [show splitLines ('\r' :: '\n' :: rest) = [] :: splitLines rest from rfl,
      getLastD_cons_ne _ _ _ (splitLines_ne_nil rest)]
    cases rest with
    | nil => decide
    | cons b r =>
      rw [getLast?_cons_ne '\r' ('\n' :: b :: r) (by simp),
        getLast?_cons_ne '\n' (b :: r) (by simp)]
      exact ih
  | case3 rest ih =>
    rw [show splitLines ('\n' :: rest) = [] :: splitLines rest from rfl,
      getLastD_cons_ne _ _ _ (splitLines_ne_nil rest)]
    cases rest with
    | nil => decide
    | cons b r =>
      rw [getLast?_cons_ne '\n' (b :: r) (by simp)]
      exact ih
  | case4 c0 rest h1 h2 h3 ih => exact absurd h3 (splitLines_ne_nil rest)
  | case5 c0 rest h1 h2 q qs h3 ih =>
    rw [splitLines_cons_fall c0 rest (fun e => h2 e) (not_crlf_of_fall h1), h3]
    simp only [List.headD_cons, List.tail_cons]
    cases qs with
    | nil =>
      have hq : q = rest := splitLines_singleton rest q h3
      subst hq
      simp
    | cons q2 qs2 =>
      have hrest_ne : rest ≠ [] := by
        intro h; rw [h] at h3; simp [splitLines] at h3
      rw [getLastD_cons_ne _ _ _ (by simp : (q2 :: qs2 : List (List Char)) ≠ []),
        ← getLastD_cons_ne q (q2 :: qs2) [] (by simp), ← h3,
        getLast?_cons_ne c0 rest hrest_ne]
      exact ih

theorem getLastD_mem {α : Type} (l : List α) (d : α) (h : l ≠ []) :
    l.getLastD d ∈ l := by
  rw [List.getLastD_eq_getLast?, List.getLast?_eq_getLast l h]
  simp [List.getLast_mem]

theorem getLastD_append_cons {α : Type} (xs : List α) (y : α) (ys : List α) (d : α) :
    (xs ++ y :: ys).getLastD d = (y :: ys).getLastD d := by
  rw [List.getLastD_eq_getLast?, List.getLastD_eq_getLast?,
    List.getLast?_append_of_ne_nil _ (by simp)]

theorem dropLast_append_cons {α : Type} (xs : List α) (y : α) (ys : List α) :
    (xs ++ y :: ys).dropLast = xs ++ (y :: ys).dropLast :=
  List.dropLast_append_of_ne_nil _ (by simp)

/-- One `data` event on the state reached after text `T` produces the
state for `T ++ c`, provided the chunk boundary does not split a `\r\n`. -/
theorem onData_stateOf (T c : List Char)
    (h : ¬(T.getLast? = some '\r' ∧ c.head? = some '\n')) :
    onData (stateOf T) c = stateOf (T ++ c) := by
  by_cases hc : c.isEmpty
  · rw [List.isEmpty_iff] at hc
    subst hc
    simp [onData]
  · have hl : '\n' ∉ (splitLines T).getLastD [] :=
      splitLines_no_newline T _ (getLastD_mem _ _ (splitLines_ne_nil T))
    have hcr : ¬(((splitLines T).getLastD []).getLast? = some '\r' ∧
        c.head? = some '\n') := by
      rintro ⟨e, hh⟩
      exact h ⟨(splitLines_last_cr T).mp e, hh⟩
    have key : splitLines (T ++ c) =
        (splitLines T).dropLast ++
          (((splitLines T).getLastD [] ++ (splitLines c).headD []) ::
            (splitLines c).tail) := by
      rw [splitLines_append_last T c, splitLines_prepend _ _ hl hcr]
    obtain ⟨p, ps, hp⟩ := List.exists_cons_of_ne_nil (splitLines_ne_nil c)
    rw [onData, if_neg (by simpa using hc)]
    cases ps with
    | nil =>
      rw [hp] at key
      simp only [List.headD_cons, List.tail_cons] at key
      rw [stateOf, stateOf, key]
      simp only [hp, List.length_cons, List.length_nil, List.headD_cons,
        getLastD_append_cons, dropLast_append_cons, List.getLastD_cons,
        List.dropLast_single, List.append_nil, if_true, List.getLastD_nil]
    | cons p2 ps2 =>
      rw [hp] at key
      simp only [List.headD_cons, List.tail_cons] at key
      rw [stateOf, stateOf, key]
      rw [if_neg (by simp [hp])]
      simp only [hp, getLastD_append_cons, dropLast_append_cons,
        List.drop_one, List.tail_cons, RState.mk.injEq]
      constructor
      · rw [getLastD_cons_ne p (p2 :: ps2) [] (by simp),
          getLastD_cons_ne ((splitLines T).getLastD [] ++ p) (p2 :: ps2) [] (by simp)]
      · rw [List.dropLast_cons_of_ne_nil (x := (splitLines T).getLastD [] ++ p)
          (l := p2 :: ps2) (by simp), List.append_assoc]
        rfl

theorem foldl_onData_stateOf (chunks : List (List Char))
    (h : ¬ SplitsCRLF chunks) :
    chunks.foldl onData ⟨[], []⟩ = stateOf chunks.flatten := by
  induction chunks using List.reverseRecOn with
  | nil => simp [stateOf, splitLines]
  | append_singleton cs c ih =>
    have hcs : ¬ SplitsCRLF cs := by
      intro ⟨i, h1, h2⟩
      apply h
      refine ⟨⟨i.val, by simp; omega⟩, ?_, ?_⟩
      · rw [List.take_append_of_le_length (by simpa using i.isLt.le)]
        exact h1
      · rw [List.get_append_left]
        exact h2
    have hbound : ¬(cs.flatten.getLast? = some '\r' ∧ c.head? = some '\n') := by
      intro ⟨h1, h2⟩
      apply h
      refine ⟨⟨cs.length, by simp⟩, ?_, ?_⟩
      · rw [List.take_append_of_le_length (le_refl _), List.take_length]
        exact h1
      · rw [show (cs ++ [c]).get ⟨cs.length, by simp⟩ = c from by
          simp [List.get_append_right]]
        exact h2
    rw [List.foldl_append, List.foldl_cons, List.foldl_nil, ih hcs,
      onData_stateOf _ _ hbound, List.flatten_append]
    simp

theorem runChunks_single (T : List Char) :
    [T].foldl onData ⟨[], []⟩ = stateOf T := by
  rw [List.foldl_cons, List.foldl_nil,
    show (⟨[], []⟩ : RState) = stateOf [] from by simp [stateOf, splitLines],
    onData_stateOf _ _ (by simp)]
  simp

/-- C4 (amended): for every partition of a byte sequence into chunks that
does not split a `\r\n` terminator across a chunk boundary, the line
reassembler delivers exactly the same lines to the line handler as
splitting the whole undivided buffer at once (with a non-empty
unterminated trailing fragment emitted as one final line at
end-of-stream).  Partitions that split a `\r\n` are excluded: see the
counterexample, where the emitted line retains the trailing `\r`. -/
theorem c4_reassembly_amended (chunks : List (List Char))
    (h : ¬ SplitsCRLF chunks) :
    runChunks chunks = runChunks [chunks.flatten] := by
  rw [runChunks, runChunks, foldl_onData_stateOf chunks h, runChunks_single]

/-- C4 counterexample: splitting the terminator of `"a\r\n" ++ "b"`
between the `\r` and the `\n` makes the reassembler emit the line
`"a\r"` instead of `"a"`, so the claim is false for partitions that
split a `\r\n` across a chunk boundary. -/
theorem c4_counterexample :
    List.flatten [['a', '\r'], ['\n', 'b']] = ['a', '\r', '\n', 'b'] ∧
    runChunks [['a', '\r'], ['\n', 'b']] = [['a', '\r'], ['b']] ∧
    runChunks [['a', '\r', '\n', 'b']] = [['a'], ['b']] ∧
    runChunks [['a', '\r'], ['\n', 'b']] ≠
      runChunks [['a', '\r', '\n', 'b']] := by
  decide

/-- C4 witness: a concrete three-chunk partition (with boundaries inside
a line and directly after a `\n`) reassembles exactly like the undivided
buffer. -/
theorem c4_reassembly_amended_witness :
    ¬ SplitsCRLF [['a', 'b', '\n'], ['c'], ['\n', 'd', '\r', '\n']] ∧
    runChunks [['a', 'b', '\n'], ['c'], ['\n', 'd', '\r', '\n']] =
      runChunks [List.flatten [['a', 'b', '\n'], ['c'], ['\n', 'd', '\r', '\n']]] :=
  ⟨by decide, c4_reassembly_amended _ (by decide)⟩


/-! ## Theorems: merge scheduler -/

theorem bestOf_min_aux (ls : List (List Nat)) (pos : Nat) (cur : Option (Nat × Nat))
    (i t : Nat) (hcur : ∀ j u, cur = some (j, u) → j < pos)
    (h : bestOf pos cur ls = some (i, t)) :
    ((cur = some (i, t)) ∨ ∃ k u tl, ls.get? k = some (u :: tl) ∧ i = pos + k ∧ t = u) ∧
    (∀ k u tl, ls.get? k = some (u :: tl) → t < u ∨ (t = u ∧ i ≤ pos + k)) ∧
    (∀ j u, cur = some (j, u) → (i = j ∧ t = u) ∨ t < u) := by
  induction ls generalizing pos cur with
  | nil =>
    simp only [bestOf] at h
    refine ⟨Or.inl h, ?_, ?_⟩
    · intro k u tl hk; simp at hk
    · intro j u hj
      rw [h] at hj
      simp only [Option.some.injEq, Prod.mk.injEq] at hj
      exact Or.inl ⟨hj.1, hj.2⟩
  | cons l rest ih =>
    cases l with
    | nil =>
      rw [show bestOf pos cur ([] :: rest) = bestOf (pos + 1) cur rest from rfl] at h
      obtain ⟨c1, c2, c3⟩ := ih (pos + 1) cur (fun j u hj => Nat.lt_succ_of_lt (hcur j u hj)) h
      refine ⟨?_, ?_, c3⟩
      · rcases c1 with hc | ⟨k, u, tl, hk, hi, ht⟩
        · exact Or.inl hc
        · exact Or.inr ⟨k + 1, u, tl, by simpa using hk, by omega, ht⟩
      · intro k u tl hk
        cases k with
        | zero => simp at hk
        | succ k2 =>
          rcases c2 k2 u tl (by simpa using hk) with hlt | ⟨he, hle⟩
          · exact Or.inl hlt
          · exact Or.inr ⟨he, by omega⟩
    | cons h0 hs =>
      cases cur with
      | none =>
        rw [show bestOf pos none ((h0 :: hs) :: rest) =
          bestOf (pos + 1) (some (pos, h0)) rest from rfl] at h
        obtain ⟨c1, c2, c3⟩ := ih (pos + 1) (some (pos, h0))
          (fun j u hj => by
            simp only [Option.some.injEq, Prod.mk.injEq] at hj
            omega) h
        have hvs := c3 pos h0 rfl
        refine ⟨?_, ?_, ?_⟩
        · rcases hvs with ⟨hi, ht⟩ | hlt
          · exact Or.inr ⟨0, h0, hs, by simp, by omega, ht⟩
          · rcases c1 with hc | ⟨k, u, tl, hk, hi, ht⟩
            · simp only [Option.some.injEq, Prod.mk.injEq] at hc
              omega
            · exact Or.inr ⟨k + 1, u, tl, by simpa using hk, by omega, ht⟩
        · intro k u tl hk
          cases k with
          | zero =>
            simp only [List.get?_cons_zero, Option.some.injEq, List.cons.injEq] at hk
            obtain ⟨he, -⟩ := hk
            rcases hvs with ⟨hi, ht⟩ | hlt
            · exact Or.inr ⟨by omega, by omega⟩
            · exact Or.inl (by omega)
          | succ k2 =>
            rcases c2 k2 u tl (by simpa using hk) with hlt | ⟨he, hle⟩
            · exact Or.inl hlt
            · exact Or.inr ⟨he, by omega⟩
        · intro j u hj; simp at hj
      | some ju =>
        obtain ⟨j0, tm⟩ := ju
        rw [show bestOf pos (some (j0, tm)) ((h0 :: hs) :: rest) =
          if tm > h0 then bestOf (pos + 1) (some (pos, h0)) rest
          else bestOf (pos + 1) (some (j0, tm)) rest from rfl] at h
        have hj0 : j0 < pos := hcur j0 tm rfl
        by_cases hgt : tm > h0
        · rw [if_pos hgt] at h
          obtain ⟨c1, c2, c3⟩ := ih (pos + 1) (some (pos, h0))
            (fun j u hj => by
              simp only [Option.some.injEq, Prod.mk.injEq] at hj
              omega) h
          have hvs := c3 pos h0 rfl
          refine ⟨?_, ?_, ?_⟩
          · rcases hvs with ⟨hi, ht⟩ | hlt
            · exact Or.inr ⟨0, h0, hs, by simp, by omega, ht⟩
            · rcases c1 with hc | ⟨k, u, tl, hk, hi, ht⟩
              · simp only [Option.some.injEq, Prod.mk.injEq] at hc
                omega
              · exact Or.inr ⟨k + 1, u, tl, by simpa using hk, by omega, ht⟩
          · intro k u tl hk
            cases k with
            | zero =>
              simp only [List.get?_cons_zero, Option.some.injEq, List.cons.injEq] at hk
              obtain ⟨he, -⟩ := hk
              rcases hvs with ⟨hi, ht⟩ | hlt
              · exact Or.inr ⟨by omega, by omega⟩
              · exact Or.inl (by omega)
            | succ k2 =>
              rcases c2 k2 u tl (by simpa using hk) with hlt | ⟨he, hle⟩
              · exact Or.inl hlt
              · exact Or.inr ⟨he, by omega⟩
          · intro j u hj
            simp only [Option.some.injEq, Prod.mk.injEq] at hj
            rcases hvs with ⟨hi, ht⟩ | hlt
            · exact Or.inr (by omega)
            · exact Or.inr (by omega)
        · rw [if_neg hgt] at h
          have hle0 : tm ≤ h0 := Nat.le_of_not_lt hgt
          obtain ⟨c1, c2, c3⟩ := ih (pos + 1) (some (j0, tm))
            (fun j u hj => by
              simp only [Option.some.injEq, Prod.mk.injEq] at hj
              omega) h
          have hvs := c3 j0 tm rfl
          refine ⟨?_, ?_, ?_⟩
          · rcases c1 with hc | ⟨k, u, tl, hk, hi, ht⟩
            · exact Or.inl hc
            · exact Or.inr ⟨k + 1, u, tl, by simpa using hk, by omega, ht⟩
          · intro k u tl hk
            cases k with
            | zero =>
              simp only [List.get?_cons_zero, Option.some.injEq, List.cons.injEq] at hk
              obtain ⟨he, -⟩ := hk
              rcases hvs with ⟨hi, ht⟩ | hlt
              · rcases Nat.lt_or_ge t u with hh | hh
                · exact Or.inl hh
                · exact Or.inr ⟨by omega, by omega⟩
              · exact Or.inl (by omega)
            | succ k2 =>
              rcases c2 k2 u tl (by simpa using hk) with hlt | ⟨he, hle⟩
              · exact Or.inl hlt
              · exact Or.inr ⟨he, by omega⟩
          · intro j u hj
            simp only [Option.some.injEq, Prod.mk.injEq] at hj
            rcases hvs with ⟨hi, ht⟩ | hlt
            · exact Or.inl ⟨by omega, by omega⟩
            · exact Or.inr (by omega)

theorem bestOf_some_ne_none (ls : List (List Nat)) (pos : Nat) (x : Nat × Nat) :
    bestOf pos (some x) ls ≠ none := by
  induction ls generalizing pos x with
  | nil => simp [bestOf]
  | cons l rest ih =>
    cases l with
    | nil => exact ih (pos + 1) x
    | cons h0 hs =>
      obtain ⟨j0, tm⟩ := x
      rw [show bestOf pos (some (j0, tm)) ((h0 :: hs) :: rest) =
        if tm > h0 then bestOf (pos + 1) (some (pos, h0)) rest
        else bestOf (pos + 1) (some (j0, tm)) rest from rfl]
      by_cases hgt : tm > h0
      · rw [if_pos hgt]; exact ih (pos + 1) _
      · rw [if_neg hgt]; exact ih (pos + 1) _

theorem bestOf_none_iff (ls : List (List Nat)) (pos : Nat) (cur : Option (Nat × Nat)) :
    bestOf pos cur ls = none ↔ cur = none ∧ ∀ l ∈ ls, l = [] := by
  induction ls generalizing pos cur with
  | nil => simp [bestOf]
  | cons l rest ih =>
    cases l with
    | nil =>
      rw [show bestOf pos cur ([] :: rest) = bestOf (pos + 1) cur rest from rfl, ih]
      simp
    | cons h0 hs =>
      constructor
      · intro h
        exfalso
        cases cur with
        | none =>
          rw [show bestOf pos none ((h0 :: hs) :: rest) =
            bestOf (pos + 1) (some (pos, h0)) rest from rfl] at h
          exact bestOf_some_ne_none _ _ _ h
        | some x =>
          obtain ⟨j0, tm⟩ := x
          rw [show bestOf pos (some (j0, tm)) ((h0 :: hs) :: rest) =
            if tm > h0 then bestOf (pos + 1) (some (pos, h0)) rest
            else bestOf (pos + 1) (some (j0, tm)) rest from rfl] at h
          by_cases hgt : tm > h0
          · rw [if_pos hgt] at h; exact bestOf_some_ne_none _ _ _ h
          · rw [if_neg hgt] at h; exact bestOf_some_ne_none _ _ _ h
      · rintro ⟨h1, h2⟩
        exact absurd (h2 (h0 :: hs) (List.mem_cons_self _ _)) (by simp)

theorem selectMin_min (ls : List (List Nat)) (i t : Nat)
    (h : selectMin ls = some (i, t)) :
    ∀ k u tl, ls.get? k = some (u :: tl) → t < u ∨ (t = u ∧ i ≤ k) := by
  obtain ⟨-, c2, -⟩ := bestOf_min_aux ls 0 none i t (by simp) h
  intro k u tl hk
  simpa using c2 k u tl hk

theorem selectMin_get (ls : List (List Nat)) (i t : Nat)
    (h : selectMin ls = some (i, t)) :
    ∃ tl, ls.get? i = some (t :: tl) := by
  obtain ⟨c1, -, -⟩ := bestOf_min_aux ls 0 none i t (by simp) h
  rcases c1 with hc | ⟨k, u, tl, hk, hi, ht⟩
  · simp at hc
  · exact ⟨tl, by rw [hi, ht]; simpa using hk⟩

theorem selectMin_none_iff (ls : List (List Nat)) :
    selectMin ls = none ↔ ∀ l ∈ ls, l = [] := by
  rw [selectMin, bestOf_none_iff]
  simp

theorem bestOf_congr (ls₁ ls₂ : List (List Nat))
    (hf : List.Forall₂ (fun l₁ l₂ => l₁.head? = l₂.head?) ls₁ ls₂)
    (pos : Nat) (cur : Option (Nat × Nat)) :
    bestOf pos cur ls₁ = bestOf pos cur ls₂ := by
  induction hf generalizing pos cur with
  | nil => rfl
  | cons hl hrest ih =>
    rename_i l₁ l₂ r₁ r₂
    cases l₁ with
    | nil =>
      cases l₂ with
      | nil => exact ih (pos + 1) cur
      | cons b bs => simp at hl
    | cons a as =>
      cases l₂ with
      | nil => simp at hl
      | cons b bs =>
        simp only [List.head?_cons, Option.some.injEq] at hl
        subst hl
        cases cur with
        | none =>
          exact ih (pos + 1) (some (pos, a))
        | some x =>
          obtain ⟨j0, tm⟩ := x
          rw [show bestOf pos (some (j0, tm)) ((a :: as) :: r₁) =
            if tm > a then bestOf (pos + 1) (some (pos, a)) r₁
            else bestOf (pos + 1) (some (j0, tm)) r₁ from rfl,
            show bestOf pos (some (j0, tm)) ((a :: bs) :: r₂) =
            if tm > a then bestOf (pos + 1) (some (pos, a)) r₂
            else bestOf (pos + 1) (some (j0, tm)) r₂ from rfl]
          by_cases hgt : tm > a
          · rw [if_pos hgt, if_pos hgt]; exact ih (pos + 1) _
          · rw [if_neg hgt, if_neg hgt]; exact ih (pos + 1) _

theorem popHeadAt_get? (i : Nat) (ls : List (List Nat)) (k : Nat) :
    (popHeadAt i ls).get? k = if k = i then (ls.get? k).map List.tail else ls.get? k := by
  induction ls generalizing i k with
  | nil => simp [popHeadAt]
  | cons l rest ih =>
    cases i with
    | zero =>
      cases k with
      | zero => simp [popHeadAt]
      | succ k2 => simp [popHeadAt]
    | succ i2 =>
      cases k with
      | zero => simp [popHeadAt]
      | succ k2 =>
        rw [show popHeadAt (i2 + 1) (l :: rest) = l :: popHeadAt i2 rest from rfl]
        simp only [List.get?_cons_succ, ih i2 k2]
        by_cases he : k2 = i2
        · rw [if_pos he, if_pos (by omega)]
        · rw [if_neg he, if_neg (by omega)]

theorem popHeadAt_len_sum (i t : Nat) (tl : List Nat) (ls : List (List Nat))
    (h : ls.get? i = some (t :: tl)) :
    ((popHeadAt i ls).map List.length).sum + 1 = ((ls.map List.length)).sum := by
  induction ls generalizing i with
  | nil => simp at h
  | cons l rest ih =>
    cases i with
    | zero =>
      simp only [List.get?_cons_zero, Option.some.injEq] at h
      subst h
      simp [popHeadAt]
      omega
    | succ i2 =>
      rw [show popHeadAt (i2 + 1) (l :: rest) = l :: popHeadAt i2 rest from rfl]
      simp only [List.map_cons, List.sum_cons]
      have := ih i2 (by simpa using h)
      omega

theorem lenTotal_popHeadAt (ls : List (List Nat)) (i t : Nat) (tl : List Nat)
    (h : ls.get? i = some (t :: tl)) :
    lenTotal (popHeadAt i ls) + 1 = lenTotal ls := by
  unfold lenTotal
  exact popHeadAt_len_sum i t tl ls h

theorem mergeFuel_congr (f : Nat) : ∀ (g : Nat) (ls : List (List Nat)),
    lenTotal ls < f → lenTotal ls < g → mergeFuel f ls = mergeFuel g ls := by
  induction f with
  | zero => intro g ls hf hg; omega
  | succ f2 ih =>
    intro g ls hf hg
    cases g with
    | zero => omega
    | succ g2 =>
      rw [mergeFuel, mergeFuel]
      cases hsel : selectMin ls with
      | none => rfl
      | some it =>
        obtain ⟨i, t⟩ := it
        obtain ⟨tl, htl⟩ := selectMin_get ls i t hsel
        have hlen := lenTotal_popHeadAt ls i t tl htl
        show (i, t) :: mergeFuel f2 (popHeadAt i ls) =
          (i, t) :: mergeFuel g2 (popHeadAt i ls)
        rw [ih g2 (popHeadAt i ls) (by omega) (by omega)]

theorem mergeCanon_eq_none (ls : List (List Nat)) (h : selectMin ls = none) :
    mergeCanon ls = [] := by
  rw [mergeCanon, mergeFuel, h]

theorem mergeCanon_eq_some (ls : List (List Nat)) (i t : Nat)
    (h : selectMin ls = some (i, t)) :
    mergeCanon ls = (i, t) :: mergeCanon (popHeadAt i ls) := by
  obtain ⟨tl, htl⟩ := selectMin_get ls i t h
  have hlen := lenTotal_popHeadAt ls i t tl htl
  rw [mergeCanon, mergeFuel, h]
  show (i, t) :: mergeFuel (lenTotal ls) (popHeadAt i ls) =
    (i, t) :: mergeCanon (popHeadAt i ls)
  rw [mergeCanon]
  exact congrArg _ (mergeFuel_congr (lenTotal ls) (lenTotal (popHeadAt i ls) + 1)
    (popHeadAt i ls) (by omega) (by omega))

theorem popHeadAt_sorted (j : Nat) (ls : List (List Nat))
    (hs : ∀ l ∈ ls, List.Chain' (· ≤ ·) l) :
    ∀ l ∈ popHeadAt j ls, List.Chain' (· ≤ ·) l := by
  induction ls generalizing j with
  | nil => simp [popHeadAt]
  | cons l0 rest ih =>
    cases j with
    | zero =>
      intro l hl
      rcases List.mem_cons.mp hl with he | hm
      · subst he
        exact List.Chain'.tail (hs l0 (List.mem_cons_self _ _))
      · exact hs l (List.mem_cons_of_mem _ hm)
    | succ j2 =>
      intro l hl
      rcases List.mem_cons.mp hl with he | hm
      · subst he; exact hs l (List.mem_cons_self _ _)
      · exact ih j2 (fun l2 h2 => hs l2 (List.mem_cons_of_mem _ h2)) l hm

theorem mergeCanon_bound (ls : List (List Nat)) (i t : Nat)
    (hb : ∀ k u tl, ls.get? k = some (u :: tl) → t < u ∨ (t = u ∧ i ≤ k))
    (hs : ∀ l ∈ ls, List.Chain' (· ≤ ·) l) :
    ∀ p ∈ mergeCanon ls, lexLE (i, t) p := by
  suffices H : ∀ (n : Nat) (ms : List (List Nat)), lenTotal ms ≤ n →
      (∀ k u tl, ms.get? k = some (u :: tl) → t < u ∨ (t = u ∧ i ≤ k)) →
      (∀ l ∈ ms, List.Chain' (· ≤ ·) l) →
      ∀ p ∈ mergeCanon ms, lexLE (i, t) p by
    exact H (lenTotal ls) ls le_rfl hb hs
  intro n
  induction n with
  | zero =>
    intro ms hlen hb2 hs2 p hp
    have hempty : ∀ l ∈ ms, l = [] := by
      intro l hl
      have hm : l.length ∈ ms.map List.length := List.mem_map.mpr ⟨l, hl, rfl⟩
      have h1 : l.length ≤ (ms.map List.length).sum :=
        List.single_le_sum (fun x _ => Nat.zero_le x) _ hm
      have h0 : lenTotal ms = (ms.map List.length).sum := rfl
      exact List.eq_nil_of_length_eq_zero (by omega)
    rw [mergeCanon_eq_none _ ((selectMin_none_iff _).mpr hempty)] at hp
    simp at hp
  | succ n2 ih =>
    intro ms hlen hb2 hs2 p hp
    cases hsel : selectMin ms with
    | none =>
      rw [mergeCanon_eq_none _ hsel] at hp
      simp at hp
    | some ju =>
      obtain ⟨j, u⟩ := ju
      rw [mergeCanon_eq_some ms j u hsel] at hp
      rcases List.mem_cons.mp hp with he | hm
      · subst he
        obtain ⟨tl, htl⟩ := selectMin_get ms j u hsel
        exact hb2 j u tl htl
      · obtain ⟨tl, htl⟩ := selectMin_get ms j u hsel
        have hlen2 : lenTotal (popHeadAt j ms) ≤ n2 := by
          have := lenTotal_popHeadAt ms j u tl htl
          omega
        apply ih (popHeadAt j ms) hlen2 ?_ (popHeadAt_sorted j ms hs2) p hm
        intro k u2 tl2 hk2
        rw [popHeadAt_get? j ms k] at hk2
        by_cases he : k = j
        · rw [if_pos he] at hk2
          subst he
          rw [htl] at hk2
          simp only [Option.map_some', Option.some.injEq, List.tail_cons] at hk2
          have hchain : List.Chain' (· ≤ ·) (u :: tl) :=
            hs2 _ (List.get?_mem htl)
          have huu2 : u ≤ u2 := by
            rw [hk2] at hchain
            exact (List.chain'_cons.mp hchain).1
          rcases hb2 k u tl htl with hlt | ⟨he2, hle⟩
          · exact Or.inl (by omega)
          · rcases Nat.lt_or_ge t u2 with hh | hh
            · exact Or.inl hh
            · exact Or.inr ⟨by omega, by omega⟩
        · rw [if_neg he] at hk2
          exact hb2 k u2 tl2 hk2

theorem mergeCanon_chain (ls : List (List Nat))
    (hs : ∀ l ∈ ls, List.Chain' (· ≤ ·) l) :
    List.Chain' lexLE (mergeCanon ls) := by
  suffices H : ∀ (n : Nat) (ms : List (List Nat)), lenTotal ms ≤ n →
      (∀ l ∈ ms, List.Chain' (· ≤ ·) l) → List.Chain' lexLE (mergeCanon ms) by
    exact H (lenTotal ls) ls le_rfl hs
  intro n
  induction n with
  | zero =>
    intro ms hlen hs2
    have hempty : ∀ l ∈ ms, l = [] := by
      intro l hl
      have hm : l.length ∈ ms.map List.length := List.mem_map.mpr ⟨l, hl, rfl⟩
      have h1 : l.length ≤ (ms.map List.length).sum :=
        List.single_le_sum (fun x _ => Nat.zero_le x) _ hm
      have h0 : lenTotal ms = (ms.map List.length).sum := rfl
      exact List.eq_nil_of_length_eq_zero (by omega)
    rw [mergeCanon_eq_none _ ((selectMin_none_iff _).mpr hempty)]
    simp
  | succ n2 ih =>
    intro ms hlen hs2
    cases hsel : selectMin ms with
    | none => rw [mergeCanon_eq_none _ hsel]; simp
    | some ju =>
      obtain ⟨j, u⟩ := ju
      rw [mergeCanon_eq_some ms j u hsel]
      obtain ⟨tl, htl⟩ := selectMin_get ms j u hsel
      have hlen2 : lenTotal (popHeadAt j ms) ≤ n2 := by
        have := lenTotal_popHeadAt ms j u tl htl
        omega
      rw [List.chain'_cons']
      constructor
      · intro p hp
        apply mergeCanon_bound (popHeadAt j ms) j u ?_ (popHeadAt_sorted j ms hs2) p
          (List.mem_of_mem_head? hp)
        intro k u2 tl2 hk2
        rw [popHeadAt_get? j ms k] at hk2
        by_cases he : k = j
        · rw [if_pos he] at hk2
          subst he
          rw [htl] at hk2
          simp only [Option.map_some', Option.some.injEq, List.tail_cons] at hk2
          have hchain : List.Chain' (· ≤ ·) (u :: tl) :=
            hs2 _ (List.get?_mem htl)
          have huu2 : u ≤ u2 := by
            rw [hk2] at hchain
            exact (List.chain'_cons.mp hchain).1
          rcases Nat.lt_or_ge u u2 with hh | hh
          · exact Or.inl hh
          · exact Or.inr ⟨by omega, by omega⟩
        · rw [if_neg he] at hk2
          exact selectMin_min ms j u hsel k u2 tl2 hk2
      · exact ih (popHeadAt j ms) hlen2 (popHeadAt_sorted j ms hs2)

theorem pendings_popPendingAt (i : Nat) (srcs : List Src) :
    pendings (popPendingAt i srcs) = popHeadAt i (pendings srcs) := by
  induction srcs generalizing i with
  | nil => simp [pendings, popPendingAt, popHeadAt]
  | cons x rest ih =>
    cases i with
    | zero => simp [pendings, popPendingAt, popHeadAt]
    | succ i2 =>
      rw [show popPendingAt (i2 + 1) (x :: rest) = x :: popPendingAt i2 rest from rfl,
        show pendings (x :: popPendingAt i2 rest) =
          x.pending :: pendings (popPendingAt i2 rest) from rfl,
        show pendings (x :: rest) = x.pending :: pendings rest from rfl,
        show popHeadAt (i2 + 1) (x.pending :: pendings rest) =
          x.pending :: popHeadAt i2 (pendings rest) from rfl, ih i2]

theorem adjustSrc_pending (x : Src) : (adjustSrc x).pending = x.pending := by
  unfold adjustSrc; split <;> [rfl; split <;> [split <;> rfl; split <;> rfl]]

theorem adjustSrc_future (x : Src) : (adjustSrc x).future = x.future := by
  unfold adjustSrc; split <;> [rfl; split <;> [split <;> rfl; split <;> rfl]]

theorem adjustSrc_done (x : Src) : (adjustSrc x).done = x.done := by
  unfold adjustSrc; split <;> [rfl; split <;> [split <;> rfl; split <;> rfl]]

theorem pendings_adjust (srcs : List Src) : pendings (adjust srcs) = pendings srcs := by
  unfold pendings adjust
  rw [List.map_map]
  exact List.map_congr_left (fun x _ => adjustSrc_pending x)

theorem remainders_adjust (srcs : List Src) :
    remainders (adjust srcs) = remainders srcs := by
  unfold remainders adjust
  rw [List.map_map]
  exact List.map_congr_left (fun x _ => by
    simp [Function.comp, adjustSrc_pending, adjustSrc_future])

theorem ready_adjust (srcs : List Src) : ready (adjust srcs) = ready srcs := by
  induction srcs with
  | nil => rfl
  | cons x rest ih =>
    rw [show adjust (x :: rest) = adjustSrc x :: adjust rest from rfl,
      show ready (adjustSrc x :: adjust rest) =
        (((adjustSrc x).done || !((adjustSrc x).pending.isEmpty)) && ready (adjust rest)) from rfl,
      show ready (x :: rest) = ((x.done || !(x.pending.isEmpty)) && ready rest) from rfl,
      adjustSrc_done, adjustSrc_pending, ih]

theorem sortedSrcs_adjust {srcs : List Src} (h : SortedSrcs srcs) :
    SortedSrcs (adjust srcs) := by
  intro x hx
  obtain ⟨y, hy, he⟩ := List.mem_map.mp hx
  rw [← he, adjustSrc_pending, adjustSrc_future]
  exact h y hy

theorem doneClosed_adjust {srcs : List Src} (h : DoneClosed srcs) :
    DoneClosed (adjust srcs) := by
  intro x hx
  obtain ⟨y, hy, he⟩ := List.mem_map.mp hx
  rw [← he, adjustSrc_done, adjustSrc_future]
  exact h y hy

theorem selectMin_remainders (srcs : List Src) (hready : ready srcs = true)
    (hd : DoneClosed srcs) :
    selectMin (remainders srcs) = selectMin (pendings srcs) := by
  unfold selectMin
  refine (bestOf_congr _ _ ?_ 0 none).symm
  induction srcs with
  | nil => exact List.Forall₂.nil
  | cons x rest ih =>
    have h2 : (x.done || !(x.pending.isEmpty)) = true ∧ ready rest = true := by
      rw [ready, List.all_cons, Bool.and_eq_true] at hready
      exact hready
    have hx : x.done = true ∨ x.pending ≠ [] := by
      rcases Bool.or_eq_true_iff.mp h2.1 with h | h
      · exact Or.inl h
      · exact Or.inr (by simpa using h)
    refine List.Forall₂.cons ?_ (ih h2.2 ?_)
    · show x.pending.head? = (x.pending ++ x.future).head?
      cases hp : x.pending with
      | nil =>
        rcases hx with hdone | hne
        · rw [hd x (List.mem_cons_self _ _) hdone]
          simp
        · exact absurd hp hne
      | cons t ts => simp
    · intro y hy; exact hd y (List.mem_cons_of_mem x hy)

theorem remainders_popPendingAt (i : Nat) (srcs : List Src) (x : Src) (t : Nat)
    (tl : List Nat) (hx : srcs.get? i = some x) (hp : x.pending = t :: tl) :
    remainders (popPendingAt i srcs) = popHeadAt i (remainders srcs) := by
  induction srcs generalizing i with
  | nil => simp at hx
  | cons y rest ih =>
    cases i with
    | zero =>
      simp only [List.get?_cons_zero, Option.some.injEq] at hx
      rw [← hx] at hp
      rw [show popPendingAt 0 (y :: rest) =
        ({ y with pending := y.pending.tail } :: rest) from rfl]
      unfold remainders
      simp only [List.map_cons]
      rw [show popHeadAt 0 ((y.pending ++ y.future) :: rest.map _) =
        ((y.pending ++ y.future).tail :: rest.map _) from rfl]
      rw [hp]
      simp
    | succ i2 =>
      rw [show popPendingAt (i2 + 1) (y :: rest) = y :: popPendingAt i2 rest from rfl]
      unfold remainders at ih ⊢
      simp only [List.map_cons]
      rw [show popHeadAt (i2 + 1) ((y.pending ++ y.future) :: rest.map _) =
        ((y.pending ++ y.future) :: popHeadAt i2 (rest.map _)) from rfl]
      rw [ih i2 (by simpa using hx)]

theorem sortedSrcs_popPendingAt {srcs : List Src} (i : Nat) (h : SortedSrcs srcs) :
    SortedSrcs (popPendingAt i srcs) := by
  induction srcs generalizing i with
  | nil => simpa [popPendingAt] using h
  | cons y rest ih =>
    cases i with
    | zero =>
      intro x hx
      rcases List.mem_cons.mp hx with he | hm
      · subst he
        show List.Chain' (· ≤ ·) (y.pending.tail ++ y.future)
        have := h y (List.mem_cons_self _ _)
        cases hp : y.pending with
        | nil => simpa [hp] using this
        | cons t ts =>
          rw [hp] at this
          simpa using List.Chain'.tail this
      · exact h x (List.mem_cons_of_mem _ hm)
    | succ i2 =>
      intro x hx
      rw [show popPendingAt (i2 + 1) (y :: rest) = y :: popPendingAt i2 rest from rfl] at hx
      rcases List.mem_cons.mp hx with he | hm
      · subst he; exact h _ (List.mem_cons_self _ _)
      · exact ih i2 (fun z hz => h z (List.mem_cons_of_mem _ hz)) x hm

theorem doneClosed_popPendingAt {srcs : List Src} (i : Nat) (h : DoneClosed srcs) :
    DoneClosed (popPendingAt i srcs) := by
  induction srcs generalizing i with
  | nil => simpa [popPendingAt] using h
  | cons y rest ih =>
    cases i with
    | zero =>
      intro x hx
      rcases List.mem_cons.mp hx with he | hm
      · subst he
        intro hdone
        exact h y (List.mem_cons_self _ _) hdone
      · exact h x (List.mem_cons_of_mem _ hm)
    | succ i2 =>
      intro x hx
      rw [show popPendingAt (i2 + 1) (y :: rest) = y :: popPendingAt i2 rest from rfl] at hx
      rcases List.mem_cons.mp hx with he | hm
      · subst he; exact h _ (List.mem_cons_self _ _)
      · exact ih i2 (fun z hz => h z (List.mem_cons_of_mem _ hz)) x hm

theorem drainFuel_congr (f : Nat) : ∀ (g : Nat) (s : MSt),
    pendTotal s < f → pendTotal s < g → drainFuel f s = drainFuel g s := by
  induction f with
  | zero => intro g s hf hg; omega
  | succ f2 ih =>
    intro g s hf hg
    cases g with
    | zero => omega
    | succ g2 =>
      rw [drainFuel, drainFuel]
      by_cases hr : ready s.srcs = false
      · rw [if_pos hr, if_pos hr]
      · rw [if_neg hr, if_neg hr]
        cases hsel : selectMin (pendings s.srcs) with
        | none => rfl
        | some it =>
          obtain ⟨i, t⟩ := it
          obtain ⟨tl, htl⟩ := selectMin_get _ i t hsel
          have hlen : pendTotal ⟨popPendingAt i s.srcs, s.out ++ [(i, t)]⟩ + 1 = pendTotal s := by
            show ((pendings (popPendingAt i s.srcs)).map List.length).sum + 1 =
              ((pendings s.srcs).map List.length).sum
            rw [pendings_popPendingAt]
            exact popHeadAt_len_sum i t tl _ htl
          show drainFuel f2 ⟨popPendingAt i s.srcs, s.out ++ [(i, t)]⟩ =
            drainFuel g2 ⟨popPendingAt i s.srcs, s.out ++ [(i, t)]⟩
          rw [ih g2 _ (by omega) (by omega)]

theorem pendTotal_pop (s : MSt) (i t : Nat) (tl : List Nat)
    (htl : (pendings s.srcs).get? i = some (t :: tl)) (out2 : List (Nat × Nat)) :
    pendTotal ⟨popPendingAt i s.srcs, out2⟩ + 1 = pendTotal s := by
  show ((pendings (popPendingAt i s.srcs)).map List.length).sum + 1 =
    ((pendings s.srcs).map List.length).sum
  rw [pendings_popPendingAt]
  exact popHeadAt_len_sum i t tl _ htl

theorem drain_eq_not_ready (s : MSt) (h : ready s.srcs = false) :
    drain s = { s with srcs := adjust s.srcs } := by
  rw [drain, drainFuel, if_pos h]

theorem drain_eq_none (s : MSt) (h1 : ready s.srcs = true)
    (h2 : selectMin (pendings s.srcs) = none) :
    drain s = { s with srcs := adjust s.srcs } := by
  rw [drain, drainFuel, if_neg (by rw [h1]; simp), h2]

theorem drain_eq_some (s : MSt) (i t : Nat) (h1 : ready s.srcs = true)
    (h2 : selectMin (pendings s.srcs) = some (i, t)) :
    drain s = drain { srcs := popPendingAt i s.srcs, out := s.out ++ [(i, t)] } := by
  obtain ⟨tl, htl⟩ := selectMin_get _ i t h2
  have hlen := pendTotal_pop s i t tl htl (s.out ++ [(i, t)])
  rw [drain, drainFuel, if_neg (by rw [h1]; simp), h2]
  show drainFuel (pendTotal s) ⟨popPendingAt i s.srcs, s.out ++ [(i, t)]⟩ =
    drain ⟨popPendingAt i s.srcs, s.out ++ [(i, t)]⟩
  rw [drain]
  exact drainFuel_congr (pendTotal s)
    (pendTotal ⟨popPendingAt i s.srcs, s.out ++ [(i, t)]⟩ + 1)
    ⟨popPendingAt i s.srcs, s.out ++ [(i, t)]⟩ (by omega) (by omega)

theorem drain_spec (s : MSt) (hs : SortedSrcs s.srcs) (hd : DoneClosed s.srcs) :
    (drain s).out ++ mergeCanon (remainders (drain s).srcs) =
      s.out ++ mergeCanon (remainders s.srcs) ∧
    SortedSrcs (drain s).srcs ∧ DoneClosed (drain s).srcs ∧
    (ready (drain s).srcs = false ∨ selectMin (pendings (drain s).srcs) = none) := by
  suffices H : ∀ (n : Nat) (s : MSt), pendTotal s ≤ n → SortedSrcs s.srcs →
      DoneClosed s.srcs →
      (drain s).out ++ mergeCanon (remainders (drain s).srcs) =
        s.out ++ mergeCanon (remainders s.srcs) ∧
      SortedSrcs (drain s).srcs ∧ DoneClosed (drain s).srcs ∧
      (ready (drain s).srcs = false ∨ selectMin (pendings (drain s).srcs) = none) by
    exact H (pendTotal s) s le_rfl hs hd
  intro n
  induction n with
  | zero =>
    intro s hlen hs hd
    by_cases hr : ready s.srcs = false
    · rw [drain_eq_not_ready s hr]
      exact ⟨by rw [remainders_adjust], sortedSrcs_adjust hs, doneClosed_adjust hd,
        Or.inl (by rw [ready_adjust]; exact hr)⟩
    · have hr2 : ready s.srcs = true := by
        cases h2 : ready s.srcs with
        | false => exact absurd h2 hr
        | true => rfl
      cases hsel : selectMin (pendings s.srcs) with
      | none =>
        rw [drain_eq_none s hr2 hsel]
        exact ⟨by rw [remainders_adjust], sortedSrcs_adjust hs, doneClosed_adjust hd,
          Or.inr (by rw [pendings_adjust]; exact hsel)⟩
      | some it =>
        obtain ⟨i, t⟩ := it
        obtain ⟨tl, htl⟩ := selectMin_get _ i t hsel
        exfalso
        have := pendTotal_pop s i t tl htl []
        omega
  | succ n2 ih =>
    intro s hlen hs hd
    by_cases hr : ready s.srcs = false
    · rw [drain_eq_not_ready s hr]
      exact ⟨by rw [remainders_adjust], sortedSrcs_adjust hs, doneClosed_adjust hd,
        Or.inl (by rw [ready_adjust]; exact hr)⟩
    · have hr2 : ready s.srcs = true := by
        cases h2 : ready s.srcs with
        | false => exact absurd h2 hr
        | true => rfl
      cases hsel : selectMin (pendings s.srcs) with
      | none =>
        rw [drain_eq_none s hr2 hsel]
        exact ⟨by rw [remainders_adjust], sortedSrcs_adjust hs, doneClosed_adjust hd,
          Or.inr (by rw [pendings_adjust]; exact hsel)⟩
      | some it =>
        obtain ⟨i, t⟩ := it
        rw [drain_eq_some s i t hr2 hsel]
        obtain ⟨tl, htl⟩ := selectMin_get _ i t hsel
        obtain ⟨x, hxg, hxp⟩ : ∃ x, s.srcs.get? i = some x ∧ x.pending = t :: tl := by
          unfold pendings at htl
          rw [List.get?_map] at htl
          cases hx : s.srcs.get? i with
          | none => rw [hx] at htl; simp at htl
          | some y =>
            rw [hx] at htl
            simp only [Option.map_some', Option.some.injEq] at htl
            exact ⟨y, rfl, htl⟩
        have hs2 : SortedSrcs (popPendingAt i s.srcs) := sortedSrcs_popPendingAt i hs
        have hd2 : DoneClosed (popPendingAt i s.srcs) := doneClosed_popPendingAt i hd
        have hlen2 : pendTotal ⟨popPendingAt i s.srcs, s.out ++ [(i, t)]⟩ ≤ n2 := by
          have := pendTotal_pop s i t tl htl (s.out ++ [(i, t)])
          omega
        obtain ⟨c1, c2, c3, c4⟩ :=
          ih ⟨popPendingAt i s.srcs, s.out ++ [(i, t)]⟩ hlen2 hs2 hd2
        refine ⟨?_, c2, c3, c4⟩
        rw [c1]
        show (s.out ++ [(i, t)]) ++ mergeCanon (remainders (popPendingAt i s.srcs)) =
          s.out ++ mergeCanon (remainders s.srcs)
        rw [remainders_popPendingAt i s.srcs x t tl hxg hxp,
          mergeCanon_eq_some (remainders s.srcs) i t
            (by rw [selectMin_remainders s.srcs hr2 hd]; exact hsel),
          List.append_assoc]
        rfl

theorem set_same {α : Type} (l : List α) (i : Nat) (a : α)
    (h : l.get? i = some a) : l.set i a = l := by
  induction l generalizing i with
  | nil => simp at h
  | cons b rest ih =>
    cases i with
    | zero =>
      rw [List.get?_cons_zero] at h
      injection h with h2
      rw [List.set_cons_zero, h2]
    | succ i2 =>
      rw [List.get?_cons_succ] at h
      rw [List.set_cons_succ, ih i2 h]

theorem schedInv_init (inputs : List (List Nat))
    (hsort : ∀ l ∈ inputs, List.Chain' (· ≤ ·) l) :
    SchedInv inputs (initSched inputs) := by
  refine ⟨?_, ?_, ?_, ?_⟩
  · intro x hx
    obtain ⟨l, hl, he⟩ := List.mem_map.mp hx
    rw [← he]
    simpa [initSrc] using hsort l hl
  · intro x hx
    obtain ⟨l, hl, he⟩ := List.mem_map.mp hx
    rw [← he]
    simp [initSrc]
  · show [] ++ mergeCanon (remainders ((initSched inputs).srcs)) = mergeCanon inputs
    rw [List.nil_append]
    congr 1
    unfold initSched remainders
    rw [List.map_map,
      show ((fun (x : Src) => x.pending ++ x.future) ∘ initSrc) = id from rfl,
      List.map_id]
  · cases inputs with
    | nil =>
      right
      rw [show pendings ((initSched []).srcs) = [] from rfl]
      rfl
    | cons l ls =>
      left
      rw [show ready ((initSched (l :: ls)).srcs) =
        (((initSrc l).done || !((initSrc l).pending.isEmpty)) &&
          ready ((initSched ls).srcs)) from rfl]
      rw [show (initSrc l).done = false from rfl,
        show (initSrc l).pending = [] from rfl]
      simp

theorem schedInv_step (inputs : List (List Nat)) (s : MSt) (e : Ev)
    (h : SchedInv inputs s) : SchedInv inputs (stepEv s e) := by
  obtain ⟨hs, hd, hout, hfp⟩ := h
  cases e with
  | deliver i =>
    rw [show stepEv s (Ev.deliver i) = (s.srcs.get? i).elim s (applyDeliver s i) from rfl]
    cases hx : s.srcs.get? i with
    | none => exact ⟨hs, hd, hout, hfp⟩
    | some x =>
      rw [Option.elim_some, applyDeliver]
      cases hf : x.future with
      | nil => exact ⟨hs, hd, hout, hfp⟩
      | cons t rest =>
        simp only
        set x2 : Src := { x with pending := x.pending ++ [t], future := rest } with hx2
        have hxm : x ∈ s.srcs := List.get?_mem hx
        have hrem : x2.pending ++ x2.future = x.pending ++ x.future := by
          rw [hx2, hf]
          simp
        have hs2 : SortedSrcs (s.srcs.set i x2) := by
          intro y hy
          rcases List.mem_or_eq_of_mem_set hy with hm | he
          · exact hs y hm
          · rw [he, hrem]; exact hs x hxm
        have hd2 : DoneClosed (s.srcs.set i x2) := by
          intro y hy
          rcases List.mem_or_eq_of_mem_set hy with hm | he
          · exact hd y hm
          · rw [he]
            intro hdone
            have : x.done = true := hdone
            have := hd x hxm this
            rw [hf] at this
            exact absurd this (by simp)
        have hrems : remainders (s.srcs.set i x2) = remainders s.srcs := by
          unfold remainders
          rw [List.map_set]
          rw [hrem]
          exact set_same _ _ _ (by rw [List.get?_map, hx]; rfl)
        obtain ⟨c1, c2, c3, c4⟩ := drain_spec { s with srcs := s.srcs.set i x2 } hs2 hd2
        exact ⟨c2, c3, by rw [c1]; show s.out ++ _ = _; rw [hrems, hout], c4⟩
  | close i =>
    rw [show stepEv s (Ev.close i) = (s.srcs.get? i).elim s (applyClose s i) from rfl]
    cases hx : s.srcs.get? i with
    | none => exact ⟨hs, hd, hout, hfp⟩
    | some x =>
      rw [Option.elim_some, applyClose]
      set x2 : Src := { x with done := true, pending := x.pending ++ x.future, future := [] }
        with hx2
      have hxm : x ∈ s.srcs := List.get?_mem hx
      have hrem : x2.pending ++ x2.future = x.pending ++ x.future := by
        rw [hx2]
        simp
      have hs2 : SortedSrcs (s.srcs.set i x2) := by
        intro y hy
        rcases List.mem_or_eq_of_mem_set hy with hm | he
        · exact hs y hm
        · rw [he, hrem]; exact hs x hxm
      have hd2 : DoneClosed (s.srcs.set i x2) := by
        intro y hy
        rcases List.mem_or_eq_of_mem_set hy with hm | he
        · exact hd y hm
        · rw [he]
          intro _
          rfl
      have hrems : remainders (s.srcs.set i x2) = remainders s.srcs := by
        unfold remainders
        rw [List.map_set]
        rw [hrem]
        exact set_same _ _ _ (by rw [List.get?_map, hx]; rfl)
      obtain ⟨c1, c2, c3, c4⟩ := drain_spec { s with srcs := s.srcs.set i x2 } hs2 hd2
      exact ⟨c2, c3, by rw [c1]; show s.out ++ _ = _; rw [hrems, hout], c4⟩

theorem schedInv_run (inputs : List (List Nat)) (evs : List Ev)
    (hsort : ∀ l ∈ inputs, List.Chain' (· ≤ ·) l) :
    SchedInv inputs (runSched inputs evs) := by
  rw [runSched]
  have : ∀ s, SchedInv inputs s → SchedInv inputs (evs.foldl stepEv s) := by
    induction evs with
    | nil => intro s h; exact h
    | cons e rest ih =>
      intro s h
      exact ih _ (schedInv_step inputs s e h)
  exact this _ (schedInv_init inputs hsort)

theorem ready_false_iff (srcs : List Src) :
    ready srcs = false ↔ Blocking srcs := by
  unfold ready Blocking
  rw [← Bool.not_eq_true, List.all_eq_true]
  constructor
  · intro h
    push_neg at h
    obtain ⟨x, hx, hb⟩ := h
    refine ⟨x, hx, ?_, ?_⟩
    · cases hd : x.done with
      | false => rfl
      | true => rw [hd] at hb; simp at hb
    · cases hp : x.pending with
      | nil => rfl
      | cons a l => rw [hp] at hb; simp at hb
  · rintro ⟨x, hx, h1, h2⟩ h
    have := h x hx
    rw [h1, h2] at this
    simp at this

theorem ready_of_all_done (srcs : List Src) (h : srcs.all (·.done) = true) :
    ready srcs = true := by
  unfold ready
  rw [List.all_eq_true] at h ⊢
  intro x hx
  rw [h x hx]
  simp

/-- C1: for every family of per-source inputs, each non-decreasing in
timestamp, and every interleaving of chunk-delivery and end-of-stream
events that eventually closes every source, the records emitted by the
merge scheduler are exactly the canonical merge: the deterministic total
order by (timestamp, source registration index).  In particular the
emitted (source, time) sequence is independent of the delivery schedule,
its timestamps are non-decreasing, and equal timestamps are ordered by
source registration index. -/
theorem c1_merge_ordering (inputs : List (List Nat)) (evs : List Ev)
    (hsort : ∀ l ∈ inputs, List.Chain' (· ≤ ·) l)
    (hdone : (runSched inputs evs).srcs.all (·.done) = true) :
    (runSched inputs evs).out = mergeCanon inputs ∧
    List.Chain' lexLE (runSched inputs evs).out := by
  obtain ⟨hs, hd, hout, hfp⟩ := schedInv_run inputs evs hsort
  have hready : ready (runSched inputs evs).srcs = true :=
    ready_of_all_done _ hdone
  have hsel : selectMin (pendings (runSched inputs evs).srcs) = none := by
    rcases hfp with h | h
    · rw [hready] at h; exact absurd h (by simp)
    · exact h
  have hpend : ∀ l ∈ pendings (runSched inputs evs).srcs, l = [] :=
    (selectMin_none_iff _).mp hsel
  have hrem : ∀ l ∈ remainders (runSched inputs evs).srcs, l = [] := by
    intro l hl
    obtain ⟨x, hx, he⟩ := List.mem_map.mp hl
    have h1 : x.pending = [] := by
      apply hpend
      exact List.mem_map.mpr ⟨x, hx, rfl⟩
    have h2 : x.future = [] := by
      apply hd x hx
      rw [List.all_eq_true] at hdone
      exact hdone x hx
    rw [← he, h1, h2]
    rfl
  have hmc : mergeCanon (remainders (runSched inputs evs).srcs) = [] :=
    mergeCanon_eq_none _ ((selectMin_none_iff _).mpr hrem)
  rw [hmc, List.append_nil] at hout
  exact ⟨hout, hout ▸ mergeCanon_chain inputs hsort⟩

theorem adjustSrc_of_done (x : Src) (h1 : x.done = true) : adjustSrc x = x := by
  unfold adjustSrc
  rw [h1]
  rfl

theorem adjustSrc_pause (x : Src) (h1 : x.done = false)
    (h2 : x.pending.isEmpty = false) (h3 : x.paused = false) :
    adjustSrc x = { x with paused := true, calls := true :: x.calls } := by
  unfold adjustSrc
  rw [h1, h2, h3]
  rfl

theorem adjustSrc_keep_paused (x : Src) (h1 : x.done = false)
    (h2 : x.pending.isEmpty = false) (h3 : x.paused = true) :
    adjustSrc x = x := by
  unfold adjustSrc
  rw [h1, h2, h3]
  rfl

theorem adjustSrc_resume (x : Src) (h1 : x.done = false)
    (h2 : x.pending.isEmpty = true) (h3 : x.paused = true) :
    adjustSrc x = { x with paused := false, calls := false :: x.calls } := by
  unfold adjustSrc
  rw [h1, h2, h3]
  rfl

theorem adjustSrc_keep_running (x : Src) (h1 : x.done = false)
    (h2 : x.pending.isEmpty = true) (h3 : x.paused = false) :
    adjustSrc x = x := by
  unfold adjustSrc
  rw [h1, h2, h3]
  rfl

theorem pausedInv_adjust {srcs : List Src} (h : PausedInv srcs) :
    PausedInv (adjust srcs) := by
  intro x hx
  obtain ⟨y, hy, he⟩ := List.mem_map.mp hx
  obtain ⟨hc, hp⟩ := h y hy
  rw [← he]
  cases hd : y.done with
  | true => rw [adjustSrc_of_done y hd]; exact ⟨hc, hp⟩
  | false =>
    cases hpe : y.pending.isEmpty with
    | true =>
      cases hps : y.paused with
      | true =>
        rw [adjustSrc_resume y hd hpe hps]
        refine ⟨?_, by simp⟩
        show List.Chain' (· ≠ ·) (false :: y.calls)
        rw [List.chain'_cons']
        refine ⟨?_, hc⟩
        intro c hch
        have h2 : y.calls.head? = some true := hp.mp hps
        rw [h2] at hch
        injection hch with hch
        rw [← hch]
        simp
      | false =>
        rw [adjustSrc_keep_running y hd hpe hps]
        exact ⟨hc, hp⟩
    | false =>
      cases hps : y.paused with
      | true =>
        rw [adjustSrc_keep_paused y hd hpe hps]
        exact ⟨hc, hp⟩
      | false =>
        rw [adjustSrc_pause y hd hpe hps]
        refine ⟨?_, by simp⟩
        show List.Chain' (· ≠ ·) (true :: y.calls)
        rw [List.chain'_cons']
        refine ⟨?_, hc⟩
        intro c hch
        intro hcontra
        have h2 : y.paused = true := hp.mpr (by rw [hch, ← hcontra])
        rw [hps] at h2
        exact absurd h2 (by simp)

theorem pausedInv_popPendingAt {srcs : List Src} (i : Nat) (h : PausedInv srcs) :
    PausedInv (popPendingAt i srcs) := by
  induction srcs generalizing i with
  | nil => simpa [popPendingAt] using h
  | cons y rest ih =>
    cases i with
    | zero =>
      intro x hx
      rcases List.mem_cons.mp hx with he | hm
      · subst he
        exact h y (List.mem_cons_self _ _)
      · exact h x (List.mem_cons_of_mem _ hm)
    | succ i2 =>
      intro x hx
      rw [show popPendingAt (i2 + 1) (y :: rest) = y :: popPendingAt i2 rest from rfl] at hx
      rcases List.mem_cons.mp hx with he | hm
      · subst he; exact h _ (List.mem_cons_self _ _)
      · exact ih i2 (fun z hz => h z (List.mem_cons_of_mem _ hz)) x hm

theorem pausedInv_drain {s : MSt} (h : PausedInv s.srcs) : PausedInv (drain s).srcs := by
  suffices H : ∀ (n : Nat) (s : MSt), pendTotal s ≤ n → PausedInv s.srcs →
      PausedInv (drain s).srcs by
    exact H (pendTotal s) s le_rfl h
  intro n
  induction n with
  | zero =>
    intro s hlen hp
    by_cases hr : ready s.srcs = false
    · rw [drain_eq_not_ready s hr]; exact pausedInv_adjust hp
    · have hr2 : ready s.srcs = true := by
        cases h2 : ready s.srcs with
        | false => exact absurd h2 hr
        | true => rfl
      cases hsel : selectMin (pendings s.srcs) with
      | none => rw [drain_eq_none s hr2 hsel]; exact pausedInv_adjust hp
      | some it =>
        obtain ⟨i, t⟩ := it
        obtain ⟨tl, htl⟩ := selectMin_get _ i t hsel
        exfalso
        have := pendTotal_pop s i t tl htl []
        omega
  | succ n2 ih =>
    intro s hlen hp
    by_cases hr : ready s.srcs = false
    · rw [drain_eq_not_ready s hr]; exact pausedInv_adjust hp
    · have hr2 : ready s.srcs = true := by
        cases h2 : ready s.srcs with
        | false => exact absurd h2 hr
        | true => rfl
      cases hsel : selectMin (pendings s.srcs) with
      | none => rw [drain_eq_none s hr2 hsel]; exact pausedInv_adjust hp
      | some it =>
        obtain ⟨i, t⟩ := it
        rw [drain_eq_some s i t hr2 hsel]
        obtain ⟨tl, htl⟩ := selectMin_get _ i t hsel
        have hlen2 : pendTotal ⟨popPendingAt i s.srcs, s.out ++ [(i, t)]⟩ ≤ n2 := by
          have := pendTotal_pop s i t tl htl (s.out ++ [(i, t)])
          omega
        exact ih ⟨popPendingAt i s.srcs, s.out ++ [(i, t)]⟩ hlen2
          (pausedInv_popPendingAt i hp)

theorem pausedInv_step {s : MSt} (e : Ev) (h : PausedInv s.srcs) :
    PausedInv (stepEv s e).srcs := by
  cases e with
  | deliver i =>
    rw [show stepEv s (Ev.deliver i) = (s.srcs.get? i).elim s (applyDeliver s i) from rfl]
    cases hx : s.srcs.get? i with
    | none => exact h
    | some x =>
      rw [Option.elim_some, applyDeliver]
      cases hf : x.future with
      | nil => exact h
      | cons t rest =>
        simp only
        apply pausedInv_drain
        intro y hy
        rcases List.mem_or_eq_of_mem_set hy with hm | he
        · exact h y hm
        · rw [he]
          exact h x (List.get?_mem hx)
  | close i =>
    rw [show stepEv s (Ev.close i) = (s.srcs.get? i).elim s (applyClose s i) from rfl]
    cases hx : s.srcs.get? i with
    | none => exact h
    | some x =>
      rw [Option.elim_some, applyClose]
      apply pausedInv_drain
      intro y hy
      rcases List.mem_or_eq_of_mem_set hy with hm | he
      · exact h y hm
      · rw [he]
        exact h x (List.get?_mem hx)

theorem pausedInv_run (inputs : List (List Nat)) (evs : List Ev) :
    PausedInv (runSched inputs evs).srcs := by
  rw [runSched]
  have hinit : PausedInv (initSched inputs).srcs := by
    intro x hx
    obtain ⟨l, hl, he⟩ := List.mem_map.mp hx
    rw [← he]
    exact ⟨by simp [initSrc], by simp [initSrc]⟩
  have : ∀ s, PausedInv s.srcs → PausedInv (evs.foldl stepEv s).srcs := by
    induction evs with
    | nil => intro s h; exact h
    | cons e rest ih => intro s h; exact ih _ (pausedInv_step e h)
  exact this _ hinit

/-- C9: pause and resume are idempotent — the underlying stream's
`pause()`/`resume()` calls strictly alternate, guarded by the `paused`
flag — and whenever the scheduler finds some source blocking it returns
without emitting after pausing exactly the not-done sources holding at
least one pending entry and resuming exactly the paused not-done sources
with zero pending entries (all other sources are untouched). -/
theorem c9_pause_resume_discipline :
    (∀ s : MSt, Blocking s.srcs →
      drain s = { s with srcs := adjust s.srcs } ∧ (drain s).out = s.out) ∧
    (∀ x : Src, x.done = false →
      (x.pending.isEmpty = false → x.paused = false →
        adjustSrc x = { x with paused := true, calls := true :: x.calls }) ∧
      (x.pending.isEmpty = false → x.paused = true → adjustSrc x = x) ∧
      (x.pending.isEmpty = true → x.paused = true →
        adjustSrc x = { x with paused := false, calls := false :: x.calls }) ∧
      (x.pending.isEmpty = true → x.paused = false → adjustSrc x = x)) ∧
    (∀ x : Src, x.done = true → adjustSrc x = x) ∧
    (∀ (inputs : List (List Nat)) (evs : List Ev),
      ∀ x ∈ (runSched inputs evs).srcs,
        List.Chain' (· ≠ ·) x.calls ∧ (x.paused = true ↔ x.calls.head? = some true)) := by
  refine ⟨?_, ?_, ?_, ?_⟩
  · intro s hb
    have hr : ready s.srcs = false := (ready_false_iff s.srcs).mpr hb
    exact ⟨drain_eq_not_ready s hr, by rw [drain_eq_not_ready s hr]⟩
  · intro x hd
    exact ⟨adjustSrc_pause x hd, adjustSrc_keep_paused x hd,
      adjustSrc_resume x hd, adjustSrc_keep_running x hd⟩
  · exact adjustSrc_of_done
  · intro inputs evs x hx
    exact pausedInv_run inputs evs x hx

/-- C9 witness: a concrete blocking state (source 0 has a pending entry,
source 1 has none and is not done); the scheduler pauses source 0,
resumes nothing, and emits nothing; and a concrete run's call traces
alternate. -/
theorem c9_pause_resume_discipline_witness :
    Blocking (⟨[⟨[5], [], false, false, []⟩, ⟨[], [7], false, false, []⟩], []⟩ : MSt).srcs ∧
    drain ⟨[⟨[5], [], false, false, []⟩, ⟨[], [7], false, false, []⟩], []⟩ =
      ⟨[⟨[5], [], false, true, [true]⟩, ⟨[], [7], false, false, []⟩], []⟩ ∧
    (drain ⟨[⟨[5], [], false, false, []⟩, ⟨[], [7], false, false, []⟩], []⟩).out = [] ∧
    (⟨[1], [], false, false, [true]⟩ : Src).done = false ∧
    adjustSrc ⟨[1], [], false, false, [true]⟩ = ⟨[1], [], false, true, [true, true]⟩ := by
  refine ⟨by decide, ?_, ?_, rfl, ?_⟩
  · rw [(c9_pause_resume_discipline.1 _ (by decide)).1]
    decide
  · rw [(c9_pause_resume_discipline.1 _ (by decide)).2]
  · exact (c9_pause_resume_discipline.2.1 ⟨[1], [], false, false, [true]⟩ rfl).1 rfl rfl

/-- C1 witness: Scenario A — two sources with records at t=1,3,5 and
t=2,4, delivered in an interleaved schedule; the emitted order is
t=1,2,3,4,5 with the sources interleaved accordingly. -/
theorem c1_merge_ordering_witness :
    (∀ l ∈ [[1, 3, 5], [2, 4]], List.Chain' (· ≤ ·) l) ∧
    (runSched [[1, 3, 5], [2, 4]]
      [.deliver 1, .deliver 0, .deliver 1, .deliver 0, .deliver 0,
        .close 1, .close 0]).srcs.all (·.done) = true ∧
    (runSched [[1, 3, 5], [2, 4]]
      [.deliver 1, .deliver 0, .deliver 1, .deliver 0, .deliver 0,
        .close 1, .close 0]).out = mergeCanon [[1, 3, 5], [2, 4]] ∧
    mergeCanon [[1, 3, 5], [2, 4]] = [(0, 1), (1, 2), (0, 3), (1, 4), (0, 5)] := by
  have hsort : ∀ l ∈ [[1, 3, 5], [2, 4]], List.Chain' (· ≤ ·) l := by
    intro l hl
    simp only [List.mem_cons, List.not_mem_nil, or_false] at hl
    rcases hl with rfl | rfl <;> simp [List.chain'_cons]
  exact ⟨hsort, by decide,
    (c1_merge_ordering [[1, 3, 5], [2, 4]] _ hsort (by decide)).1,
    by decide⟩

/-! ## Theorems: JSON round-trip, classifier, filter, renderer, heap -/

theorem digitChar_toNat (d : Nat) (h : d < 10) : (digitChar d).toNat = 48 + d := by
  unfold digitChar
  interval_cases d <;> decide

theorem isDigitC_digitChar (d : Nat) (h : d < 10) : isDigitC (digitChar d) = true := by
  unfold isDigitC
  rw [digitChar_toNat d h]
  simp
  omega

theorem digitChar_ne_zero_char (d : Nat) (h1 : 0 < d) (h2 : d < 10) :
    digitChar d ≠ '0' := by
  intro h
  have h3 := congrArg Char.toNat h
  rw [digitChar_toNat d h2] at h3
  have h4 : ('0'.toNat) = 48 := by decide
  omega

theorem natCharsAux_zero (f : Nat) : natCharsAux f 0 = [] := by
  cases f <;> simp [natCharsAux]

theorem parseDigitsAcc_append (f : Nat) : ∀ (n acc : Nat) (rest : List Char),
    0 < n → n ≤ f →
    parseDigitsAcc acc (natCharsAux f n ++ rest) =
      parseDigitsAcc (acc * 10 ^ (natCharsAux f n).length + n) rest := by
  induction f with
  | zero => intro n acc rest h1 h2; omega
  | succ f2 ih =>
    intro n acc rest h1 h2
    rw [natCharsAux, if_neg (by omega)]
    by_cases hq : n / 10 = 0
    · have hn10 : n < 10 := by omega
      rw [hq, natCharsAux_zero]
      simp only [List.nil_append, List.singleton_append, List.length_cons,
        List.length_nil]
      rw [parseDigitsAcc, if_pos (isDigitC_digitChar _ (by omega))]
      rw [digitChar_toNat _ (by omega)]
      congr 1
      have hmod : n % 10 = n := Nat.mod_eq_of_lt hn10
      simp [pow_succ]
      omega
    · rw [List.append_assoc]
      rw [ih (n / 10) acc _ (by omega) (by omega)]
      simp only [List.singleton_append]
      rw [parseDigitsAcc, if_pos (isDigitC_digitChar _ (by omega))]
      rw [digitChar_toNat _ (by omega)]
      congr 1
      rw [List.length_append, List.length_cons, List.length_nil, pow_succ]
      have hmod := Nat.div_add_mod n 10
      have h48 : 48 + n % 10 - 48 = n % 10 := by omega
      rw [h48]
      have hexp : (acc * 10 ^ (natCharsAux f2 (n / 10)).length + n / 10) * 10 =
          acc * (10 ^ (natCharsAux f2 (n / 10)).length * 10) + (n / 10) * 10 := by
        ring
      rw [hexp]
      omega

theorem parseDigitsAcc_stop (acc : Nat) (rest : List Char)
    (h : rest.head?.elim True (fun c => isDigitC c = false)) :
    parseDigitsAcc acc rest = (acc, rest) := by
  cases rest with
  | nil => rfl
  | cons c r =>
    simp only [List.head?_cons, Option.elim_some] at h
    rw [parseDigitsAcc, if_neg (by rw [h]; simp)]

theorem natCharsAux_lead (f : Nat) : ∀ n, 0 < n → n ≤ f →
    ∃ d ds, natCharsAux f n = digitChar d :: ds ∧ 0 < d ∧ d < 10 := by
  induction f with
  | zero => intro n h1 h2; omega
  | succ f2 ih =>
    intro n h1 h2
    rw [natCharsAux, if_neg (by omega)]
    by_cases hq : n / 10 = 0
    · rw [hq, natCharsAux_zero]
      exact ⟨n % 10, [], by simp, by omega, by omega⟩
    · obtain ⟨d, ds, hds, hd1, hd2⟩ := ih (n / 10) (by omega) (by omega)
      exact ⟨d, ds ++ [digitChar (n % 10)], by rw [hds]; simp, hd1, hd2⟩

theorem parseNatPart_natChars (n : Nat) (rest : List Char)
    (h : rest.head?.elim True (fun c => isDigitC c = false)) :
    parseNatPart (natChars n ++ rest) = some (n, rest) := by
  by_cases h0 : n = 0
  · subst h0
    rw [natChars, if_pos rfl]
    simp only [List.singleton_append]
    rw [parseNatPart, if_pos (by decide)]
    rw [if_neg ?_]
    · rw [show ('0'.toNat - 48 : Nat) = 0 from by decide, parseDigitsAcc_stop 0 rest h]
    · cases rest with
      | nil => simp
      | cons c r =>
        simp only [List.head?_cons, Option.elim_some] at h
        simp [h]
  · obtain ⟨d, ds, hds, hd1, hd2⟩ := natCharsAux_lead n n (by omega) le_rfl
    rw [natChars, if_neg h0, hds]
    simp only [List.cons_append]
    rw [parseNatPart, if_pos (isDigitC_digitChar d hd2)]
    rw [if_neg (by simp [digitChar_ne_zero_char d hd1 hd2])]
    have key : parseDigitsAcc 0 ((digitChar d :: ds) ++ rest) = (n, rest) := by
      rw [← hds, parseDigitsAcc_append n n 0 rest (by omega) le_rfl,
        parseDigitsAcc_stop _ rest h]
      simp
    simp only [List.cons_append] at key
    rw [parseDigitsAcc, if_pos (isDigitC_digitChar d hd2)] at key
    simp only [Nat.zero_mul, Nat.zero_add] at key
    rw [key]

theorem parseHexDigit_hexDigit (m : Nat) (h : m < 16) :
    parseHexDigit (hexDigit m) = some m := by
  unfold hexDigit digitChar
  interval_cases m <;> decide

theorem parseStringBody_esc (s : List Char) : ∀ rest : List Char,
    parseStringBody (escString s ++ '"' :: rest) = some (s, rest) := by
  induction s with
  | nil =>
    intro rest
    rw [escString]
    simp only [List.nil_append]
    rw [parseStringBody.eq_def]
    simp
  | cons c s2 ih =>
    intro rest
    rw [escString, List.append_assoc]
    unfold escChar
    by_cases h1 : c = '"'
    · subst h1
      rw [if_pos rfl]
      simp only [List.cons_append, List.nil_append]
      rw [parseStringBody.eq_def]
      simp [ih rest]
    · rw [if_neg h1]
      by_cases h2 : c = '\\'
      · subst h2
        rw [if_pos rfl]
        simp only [List.cons_append, List.nil_append]
        rw [parseStringBody.eq_def]
        simp [ih rest]
      · rw [if_neg h2]
        by_cases h3 : c = '\x08'
        · subst h3
          rw [if_pos rfl]
          simp only [List.cons_append, List.nil_append]
          rw [parseStringBody.eq_def]
          simp [ih rest]
        · rw [if_neg h3]
          by_cases h4 : c = '\x0c'
          · subst h4
            rw [if_pos rfl]
            simp only [List.cons_append, List.nil_append]
            rw [parseStringBody.eq_def]
            simp [ih rest]
          · rw [if_neg h4]
            by_cases h5 : c = '\n'
            · subst h5
              rw [if_pos rfl]
              simp only [List.cons_append, List.nil_append]
              rw [parseStringBody.eq_def]
              simp [ih rest]
            · rw [if_neg h5]
              by_cases h6 : c = '\r'
              · subst h6
                rw [if_pos rfl]
                simp only [List.cons_append, List.nil_append]
                rw [parseStringBody.eq_def]
                simp [ih rest]
              · rw [if_neg h6]
                by_cases h7 : c = '\t'
                · subst h7
                  rw [if_pos rfl]
                  simp only [List.cons_append, List.nil_append]
                  rw [parseStringBody.eq_def]
                  simp [ih rest]
                · rw [if_neg h7]
                  by_cases h8 : c.toNat < 0x20
                  · rw [if_pos h8]
                    simp only [List.cons_append, List.nil_append]
                    have e1 : parseHexDigit (hexDigit (c.toNat / 16)) =
                        some (c.toNat / 16) := parseHexDigit_hexDigit _ (by omega)
                    have e2 : parseHexDigit (hexDigit (c.toNat % 16)) =
                        some (c.toNat % 16) := parseHexDigit_hexDigit _ (by omega)
                    have hv : (c.toNat).isValidChar := Or.inl (by omega)
                    rw [parseStringBody.eq_def]
                    simp [e1, e2, hv, ih rest, Char.ofNat_toNat,
                      show parseHexDigit '0' = some 0 from by decide]
                    rw [show c.toNat / 16 * 16 + c.toNat % 16 = c.toNat from by omega]
                    exact ⟨hv, Char.ofNat_toNat c⟩
                  · rw [if_neg h8]
                    simp only [List.cons_append, List.nil_append]
                    rw [parseStringBody.eq_def]
                    simp [ih rest, h1, h2, h8]

theorem keysNodupB_iff (kvs : List (String × JVal)) :
    keysNodupB kvs = true ↔ (kvs.map Prod.fst).Nodup := by
  induction kvs with
  | nil => simp [keysNodupB]
  | cons y rest ih =>
    obtain ⟨k, v⟩ := y
    rw [keysNodupB]
    simp only [List.map_cons, List.nodup_cons, Bool.and_eq_true, Bool.not_eq_true']
    rw [ih]
    constructor
    · rintro ⟨h1, h2⟩
      refine ⟨fun hm => ?_, h2⟩
      rw [List.contains_eq_any_beq] at h1
      have : (rest.map Prod.fst).any (k == ·) = true := by
        rw [List.any_eq_true]
        exact ⟨k, hm, by simp⟩
      rw [this] at h1
      simp at h1
    · rintro ⟨h1, h2⟩
      refine ⟨?_, h2⟩
      rw [List.contains_eq_any_beq]
      rw [List.any_eq_false]
      intro a ha
      simp only [beq_iff_eq]
      intro he
      exact h1 (he ▸ ha)

theorem objSet_append (acc : List (String × JVal)) (k : String) (v : JVal)
    (h : k ∉ acc.map Prod.fst) :
    objSet acc k v = acc ++ [(k, v)] := by
  induction acc with
  | nil => rfl
  | cons y rest ih =>
    obtain ⟨k2, v2⟩ := y
    simp only [List.map_cons, List.mem_cons, not_or] at h
    rw [objSet, if_neg (fun he => h.1 he.symm), ih h.2]
    rfl

theorem dedupObjAux_append (kvs : List (String × JVal)) :
    ∀ acc : List (String × JVal),
    ((acc ++ kvs).map Prod.fst).Nodup →
    dedupObjAux acc kvs = acc ++ kvs := by
  induction kvs with
  | nil => intro acc h; rw [dedupObjAux, List.append_nil]
  | cons y rest ih =>
    obtain ⟨k, v⟩ := y
    intro acc h
    have hmap : ((acc ++ (k, v) :: rest).map Prod.fst) =
        acc.map Prod.fst ++ k :: rest.map Prod.fst := by simp
    rw [hmap] at h
    have h2 := (List.nodup_cons.mp (List.nodup_middle.mp h)).1
    have hnotin : k ∉ acc.map Prod.fst := fun hm => h2 (List.mem_append_left _ hm)
    rw [dedupObjAux, objSet_append acc k v hnotin, ih (acc ++ [(k, v)]) ?_]
    · rw [List.append_assoc]
      rfl
    · have : acc ++ [(k, v)] ++ rest = acc ++ (k, v) :: rest := by
        rw [List.append_assoc]
        rfl
      rw [this, hmap]
      exact h

theorem dedupObj_self (kvs : List (String × JVal))
    (h : keysNodupB kvs = true) : dedupObj kvs = kvs := by
  rw [dedupObj, dedupObjAux_append kvs [] (by simpa using (keysNodupB_iff kvs).mp h)]
  rfl

theorem stringMk_data (s : String) : String.mk s.data = s := rfl

theorem Jsize_pos (v : JVal) : 0 < Jsize v := by
  cases v <;> rw [Jsize] <;> omega

theorem skipWs_not (c : Char) (l : List Char) (h : isJsonWs c = false) :
    skipWs (c :: l) = c :: l := by
  rw [skipWs, if_neg]
  simp [h]

theorem isJsonWs_digit (c : Char) (h : isDigitC c = true) : isJsonWs c = false := by
  unfold isDigitC at h
  simp only [Bool.and_eq_true, decide_eq_true_eq] at h
  rw [isJsonWs]
  simp only [Bool.or_eq_false_iff, decide_eq_false_iff_not]
  have h1 := h.1
  refine ⟨⟨⟨fun he => ?_, fun he => ?_⟩, fun he => ?_⟩, fun he => ?_⟩ <;>
    subst he <;> revert h1 <;> decide

theorem digit_char_cases (c : Char) (h : isDigitC c = true) :
    c = '0' ∨ c = '1' ∨ c = '2' ∨ c = '3' ∨ c = '4' ∨ c = '5' ∨
      c = '6' ∨ c = '7' ∨ c = '8' ∨ c = '9' := by
  unfold isDigitC at h
  simp only [Bool.and_eq_true, decide_eq_true_eq] at h
  have hc : Char.ofNat c.toNat = c := Char.ofNat_toNat c
  have hv : c.toNat = 48 ∨ c.toNat = 49 ∨ c.toNat = 50 ∨ c.toNat = 51 ∨
      c.toNat = 52 ∨ c.toNat = 53 ∨ c.toNat = 54 ∨ c.toNat = 55 ∨
      c.toNat = 56 ∨ c.toNat = 57 := by omega
  rcases hv with hv|hv|hv|hv|hv|hv|hv|hv|hv|hv <;> rw [hv] at hc <;>
    rw [← hc] <;> simp <;> decide

theorem parseVal_minus (f : Nat) (rest2 : List Char) :
    parseVal (f + 1) ('-' :: rest2) =
      (parseNatPart rest2).map (fun p => (JVal.num (-(p.1 : Int)), p.2)) := rfl

theorem parseVal_digit (f : Nat) (c : Char) (rest : List Char) (h : isDigitC c = true) :
    parseVal (f + 1) (c :: rest) =
      (parseNatPart (c :: rest)).map (fun p => (JVal.num (p.1 : Int), p.2)) := by
  rcases digit_char_cases c h with rfl|rfl|rfl|rfl|rfl|rfl|rfl|rfl|rfl|rfl <;> rfl

theorem parseVal_intChars (f : Nat) (n : Int) (rest : List Char)
    (h : rest.head?.elim True (fun c => isDigitC c = false)) :
    parseVal (f + 1) (intChars n ++ rest) = some (.num n, rest) := by
  rw [intChars]
  by_cases hn : n < 0
  · rw [if_pos hn]
    simp only [List.cons_append]
    rw [parseVal_minus, parseNatPart_natChars n.natAbs rest h]
    simp only [Option.map_some']
    have he : (-(n.natAbs : Int)) = n := by omega
    rw [he]
  · rw [if_neg hn]
    have hd : ∃ c t, natChars n.natAbs = c :: t ∧ isDigitC c = true := by
      by_cases h0 : n.natAbs = 0
      · rw [natChars, if_pos h0]
        exact ⟨'0', [], rfl, by decide⟩
      · obtain ⟨d, ds, hds, hd1, hd2⟩ :=
          natCharsAux_lead n.natAbs n.natAbs (by omega) le_rfl
        rw [natChars, if_neg h0, hds]
        exact ⟨_, _, rfl, isDigitC_digitChar d hd2⟩
    obtain ⟨c, t, hct, hdig⟩ := hd
    rw [hct]
    simp only [List.cons_append]
    rw [parseVal_digit f c _ hdig]
    have hnp : parseNatPart (c :: (t ++ rest)) = some (n.natAbs, rest) := by
      rw [show c :: (t ++ rest) = natChars n.natAbs ++ rest from by rw [hct]; simp]
      exact parseNatPart_natChars n.natAbs rest h
    rw [hnp]
    simp only [Option.map_some']
    have he : ((n.natAbs : Int)) = n := by omega
    rw [he]

theorem parseVal_null (f : Nat) (rest : List Char) :
    parseVal (f + 1) ('n' :: 'u' :: 'l' :: 'l' :: rest) = some (.null, rest) := rfl

theorem parseVal_true (f : Nat) (rest : List Char) :
    parseVal (f + 1) ('t' :: 'r' :: 'u' :: 'e' :: rest) = some (.bool true, rest) := rfl

theorem parseVal_false (f : Nat) (rest : List Char) :
    parseVal (f + 1) ('f' :: 'a' :: 'l' :: 's' :: 'e' :: rest) =
      some (.bool false, rest) := rfl

theorem parseVal_quote (f : Nat) (rest : List Char) :
    parseVal (f + 1) ('"' :: rest) =
      (parseStringBody rest).map (fun p => (.str (String.mk p.1), p.2)) := rfl

theorem parseVal_brace (f : Nat) (rest2 : List Char) :
    parseVal (f + 1) ('{' :: rest2) =
      (match skipWs rest2 with
       | '}' :: rest3 => some (.obj [], rest3)
       | l2 => (parseMembers f l2).map (fun p => (.obj (dedupObj p.1), p.2))) := rfl

theorem parseVal_brack (f : Nat) (rest2 : List Char) :
    parseVal (f + 1) ('[' :: rest2) =
      (match skipWs rest2 with
       | ']' :: rest3 => some (.arr [], rest3)
       | l2 => (parseElems f l2).map (fun p => (.arr p.1, p.2))) := rfl

theorem parseMembers_quote (f : Nat) (rest : List Char) :
    parseMembers (f + 1) ('"' :: rest) =
      (match parseStringBody rest with
       | none => none
       | some (kcs, r1) =>
         match skipWs r1 with
         | ':' :: r2 =>
           match parseVal f r2 with
           | none => none
           | some (v, r3) =>
             match skipWs r3 with
             | ',' :: r4 =>
               (parseMembers f (skipWs r4)).map
                 (fun p => ((String.mk kcs, v) :: p.1, p.2))
             | '}' :: r4 => some ([(String.mk kcs, v)], r4)
             | _ => none
         | _ => none) := rfl

theorem parseElems_succ (f : Nat) (l : List Char) :
    parseElems (f + 1) l =
      (match parseVal f l with
       | none => none
       | some (v, r1) =>
         match skipWs r1 with
         | ',' :: r2 => (parseElems f r2).map (fun p => (v :: p.1, p.2))
         | ']' :: r2 => some ([v], r2)
         | _ => none) := rfl

theorem natChars_ne_nil (n : Nat) : natChars n ≠ [] := by
  by_cases h0 : n = 0
  · subst h0
    simp [natChars]
  · obtain ⟨d, ds, hds, _, _⟩ := natCharsAux_lead n n (by omega) le_rfl
    rw [natChars, if_neg h0, hds]
    simp

theorem stringifyV_head (v : JVal) :
    ∃ c t, stringifyV v = c :: t ∧ isJsonWs c = false ∧ c ≠ ']' := by
  cases v with
  | null => exact ⟨'n', _, rfl, by decide, by decide⟩
  | bool b => cases b
              · exact ⟨'f', _, rfl, by decide, by decide⟩
              · exact ⟨'t', _, rfl, by decide, by decide⟩
  | str s => exact ⟨'"', _, rfl, by decide, by decide⟩
  | arr xs => exact ⟨'[', _, rfl, by decide, by decide⟩
  | obj kvs => exact ⟨'{', _, rfl, by decide, by decide⟩
  | num n =>
    rw [stringifyV, intChars]
    by_cases hn : n < 0
    · rw [if_pos hn]
      exact ⟨'-', _, rfl, by decide, by decide⟩
    · rw [if_neg hn]
      by_cases h0 : n.natAbs = 0
      · rw [natChars, if_pos h0]
        exact ⟨'0', [], rfl, by decide, by decide⟩
      · obtain ⟨d, ds, hds, hd1, hd2⟩ := natCharsAux_lead n.natAbs n.natAbs (by omega) le_rfl
        rw [natChars, if_neg h0, hds]
        refine ⟨digitChar d, ds, rfl, isJsonWs_digit _ (isDigitC_digitChar d hd2), ?_⟩
        intro he
        have h3 := congrArg Char.toNat he
        rw [digitChar_toNat d hd2] at h3
        have h4 : (']'.toNat) = 93 := by decide
        omega

theorem stringifyObj_head (k : String) (v : JVal) (t : List (String × JVal)) :
    ∃ tl, stringifyObj ((k, v) :: t) = '"' :: tl := by
  cases t with
  | nil => exact ⟨escString k.data ++ ['"'] ++ ':' :: stringifyV v, by
      rw [stringifyObj, quoteString]; simp⟩
  | cons y t2 => exact ⟨escString k.data ++ ['"'] ++ ':' :: stringifyV v ++
      ',' :: stringifyObj (y :: t2), by rw [stringifyObj, quoteString]; simp⟩

theorem size_le_aux : ∀ N : Nat,
    (∀ v, Jsize v ≤ N → Jsize v ≤ (stringifyV v).length) ∧
    (∀ xs, JsizeArr xs ≤ N → JsizeArr xs ≤ (stringifyArr xs).length + 1) ∧
    (∀ kvs, JsizeObj kvs ≤ N → JsizeObj kvs ≤ (stringifyObj kvs).length + 1) := by
  intro N
  induction N with
  | zero =>
    refine ⟨fun v h => absurd h (by have := Jsize_pos v; omega),
      fun xs h => ?_, fun kvs h => ?_⟩
    · cases xs with
      | nil => rw [JsizeArr]; omega
      | cons x t => rw [JsizeArr] at h; omega
    · cases kvs with
      | nil => rw [JsizeObj]; omega
      | cons y t =>
        obtain ⟨k, v⟩ := y
        rw [JsizeObj] at h
        omega
  | succ N ih =>
    obtain ⟨ih1, ih2, ih3⟩ := ih
    refine ⟨fun v h => ?_, fun xs h => ?_, fun kvs h => ?_⟩
    · cases v with
      | null => rw [Jsize, stringifyV]; simp
      | bool b => cases b <;> (rw [Jsize, stringifyV]) <;> simp
      | num n =>
        rw [Jsize, stringifyV]
        exact List.length_pos.mpr (by rw [intChars]; split <;> simp [natChars_ne_nil])
      | str s =>
        rw [Jsize, stringifyV, quoteString]
        simp
      | arr xs =>
        rw [Jsize] at h ⊢
        rw [stringifyV]
        have hx := ih2 xs (by omega)
        simp only [List.length_cons, List.length_append, List.length_singleton]
        omega
      | obj kvs =>
        rw [Jsize] at h ⊢
        rw [stringifyV]
        have hx := ih3 kvs (by omega)
        simp only [List.length_cons, List.length_append, List.length_singleton]
        omega
    · cases xs with
      | nil => rw [JsizeArr]; omega
      | cons x t =>
        rw [JsizeArr] at h ⊢
        have hx := ih1 x (by omega)
        cases t with
        | nil =>
          rw [stringifyArr]
          simp only [JsizeArr]
          omega
        | cons y t2 =>
          have ht := ih2 (y :: t2) (by omega)
          rw [stringifyArr]
          simp only [List.length_append, List.length_cons]
          omega
    · cases kvs with
      | nil => rw [JsizeObj]; omega
      | cons y t =>
        obtain ⟨k, v⟩ := y
        rw [JsizeObj] at h ⊢
        have hx := ih1 v (by omega)
        cases t with
        | nil =>
          rw [stringifyObj]
          simp only [JsizeObj, List.length_append, List.length_cons]
          omega
        | cons y2 t2 =>
          have ht := ih3 (y2 :: t2) (by omega)
          rw [stringifyObj]
          simp only [List.length_append, List.length_cons]
          omega

theorem Jsize_le_length (v : JVal) : Jsize v ≤ (stringifyV v).length :=
  (size_le_aux (Jsize v)).1 v le_rfl

theorem roundtrip_aux : ∀ f : Nat,
    (∀ v rest, Jsize v ≤ f → wfJ v = true →
        rest.head?.elim True (fun c => isDigitC c = false) →
        parseVal f (stringifyV v ++ rest) = some (v, rest)) ∧
    (∀ xs rest, xs ≠ [] → JsizeArr xs ≤ f → wfArr xs = true →
        parseElems f (stringifyArr xs ++ ']' :: rest) = some (xs, rest)) ∧
    (∀ kvs rest, kvs ≠ [] → JsizeObj kvs ≤ f → wfObj kvs = true →
        parseMembers f (stringifyObj kvs ++ '}' :: rest) = some (kvs, rest)) := by
  intro f
  induction f with
  | zero =>
    refine ⟨fun v rest h1 _ _ => absurd h1 (by have := Jsize_pos v; omega),
      fun xs rest hne h1 _ => ?_, fun kvs rest hne h1 _ => ?_⟩
    · cases xs with
      | nil => exact absurd rfl hne
      | cons x t => rw [JsizeArr] at h1; omega
    · cases kvs with
      | nil => exact absurd rfl hne
      | cons y t =>
        obtain ⟨k, v⟩ := y
        rw [JsizeObj] at h1
        omega
  | succ f ih =>
    obtain ⟨ih1, ih2, ih3⟩ := ih
    refine ⟨fun v rest h1 h2 h3 => ?_, fun xs rest hne h1 h2 => ?_,
      fun kvs rest hne h1 h2 => ?_⟩
    · cases v with
      | null =>
        rw [stringifyV]
        simp only [List.cons_append, List.nil_append]
        exact parseVal_null f rest
      | bool b =>
        cases b
        · rw [stringifyV]
          simp only [List.cons_append, List.nil_append]
          exact parseVal_false f rest
        · rw [stringifyV]
          simp only [List.cons_append, List.nil_append]
          exact parseVal_true f rest
      | num n =>
        rw [stringifyV]
        exact parseVal_intChars f n rest h3
      | str s =>
        rw [stringifyV, quoteString]
        simp only [List.cons_append, List.append_assoc, List.singleton_append, List.nil_append]
        rw [parseVal_quote, parseStringBody_esc]
        simp only [Option.map_some']
      | arr xs =>
        rw [stringifyV]
        simp only [List.cons_append, List.append_assoc, List.singleton_append, List.nil_append]
        rw [parseVal_brack]
        cases xs with
        | nil =>
          rw [stringifyArr]
          simp only [List.nil_append]
          rw [skipWs_not ']' rest (by decide)]
          rfl
        | cons x t =>
          obtain ⟨c, tl, hc, hws, hne2⟩ := stringifyV_head x
          have hhead : ∃ tl2, stringifyArr (x :: t) = c :: tl2 := by
            cases t with
            | nil => exact ⟨tl, by rw [stringifyArr, hc]⟩
            | cons y t2 =>
              exact ⟨tl ++ ',' :: stringifyArr (y :: t2), by rw [stringifyArr, hc]; simp⟩
          obtain ⟨tl2, htl2⟩ := hhead
          rw [htl2]
          simp only [List.cons_append]
          rw [skipWs_not c _ hws]
          split
          · next r3 heq =>
            exfalso
            rw [List.cons.injEq] at heq
            exact hne2 heq.1
          · next l2 hne3 =>
            have hre : c :: (tl2 ++ ']' :: rest) = stringifyArr (x :: t) ++ ']' :: rest := by
              rw [htl2]
              simp
            rw [hre, ih2 (x :: t) rest (by simp) (by rw [Jsize] at h1; omega)
              (by rw [wfJ] at h2; exact h2)]
            simp only [Option.map_some']
      | obj kvs =>
        rw [stringifyV]
        simp only [List.cons_append, List.append_assoc, List.singleton_append, List.nil_append]
        rw [parseVal_brace]
        rw [wfJ, Bool.and_eq_true] at h2
        cases kvs with
        | nil =>
          rw [stringifyObj]
          simp only [List.nil_append]
          rw [skipWs_not '}' rest (by decide)]
          simp [dedupObj, dedupObjAux]
        | cons y t =>
          obtain ⟨k, v⟩ := y
          obtain ⟨tl2, htl2⟩ := stringifyObj_head k v t
          rw [htl2]
          simp only [List.cons_append]
          rw [skipWs_not '"' _ (by decide)]
          split
          · next r3 heq =>
            exfalso
            rw [List.cons.injEq] at heq
            exact absurd heq.1 (by decide)
          · next l2 hne3 =>
            have hre : '"' :: (tl2 ++ '}' :: rest) =
                stringifyObj ((k, v) :: t) ++ '}' :: rest := by
              rw [htl2]
              simp
            rw [hre, ih3 ((k, v) :: t) rest (by simp) (by rw [Jsize] at h1; omega) h2.2]
            simp only [Option.map_some']
            rw [dedupObj_self _ h2.1]
    · cases xs with
      | nil => exact absurd rfl hne
      | cons x t =>
        have hJx : Jsize x ≤ f := by rw [JsizeArr] at h1; omega
        rw [wfArr, Bool.and_eq_true] at h2
        rw [parseElems_succ]
        cases t with
        | nil =>
          rw [stringifyArr]
          rw [ih1 x (']' :: rest) hJx h2.1
            (by simp only [List.head?_cons, Option.elim_some]; decide)]
          rfl
        | cons y t2 =>
          rw [stringifyArr]
          simp only [List.append_assoc, List.cons_append]
          rw [ih1 x _ hJx h2.1
            (by simp only [List.head?_cons, Option.elim_some]; decide)]
          show (parseElems f (stringifyArr (y :: t2) ++ ']' :: rest)).map
              (fun p => (x :: p.1, p.2)) = some (x :: y :: t2, rest)
          rw [ih2 (y :: t2) rest (by simp) (by rw [JsizeArr] at h1; omega) h2.2]
          simp only [Option.map_some']
    · cases kvs with
      | nil => exact absurd rfl hne
      | cons y t =>
        obtain ⟨k, v⟩ := y
        have hJv : Jsize v ≤ f := by rw [JsizeObj] at h1; omega
        rw [wfObj, Bool.and_eq_true] at h2
        cases t with
        | nil =>
          rw [stringifyObj, quoteString]
          simp only [List.cons_append, List.append_assoc, List.singleton_append, List.nil_append]
          rw [parseMembers_quote, parseStringBody_esc]
          show (match parseVal f (stringifyV v ++ '}' :: rest) with
            | none => none
            | some (v2, r3) =>
              match skipWs r3 with
              | ',' :: r4 =>
                (parseMembers f (skipWs r4)).map
                  (fun p => ((String.mk k.data, v2) :: p.1, p.2))
              | '}' :: r4 => some ([(String.mk k.data, v2)], r4)
              | _ => none) = some ([(k, v)], rest)
          rw [ih1 v ('}' :: rest) hJv h2.1
            (by simp only [List.head?_cons, Option.elim_some]; decide)]
          show some ([(String.mk k.data, v)], rest) = some ([(k, v)], rest)
          rw [stringMk_data]
        | cons y2 t2 =>
          obtain ⟨k2, v2⟩ := y2
          rw [stringifyObj, quoteString]
          simp only [List.cons_append, List.append_assoc, List.singleton_append, List.nil_append]
          rw [parseMembers_quote, parseStringBody_esc]
          show (match parseVal f (stringifyV v ++
              ',' :: (stringifyObj ((k2, v2) :: t2) ++ '}' :: rest)) with
            | none => none
            | some (w, r3) =>
              match skipWs r3 with
              | ',' :: r4 =>
                (parseMembers f (skipWs r4)).map
                  (fun p => ((String.mk k.data, w) :: p.1, p.2))
              | '}' :: r4 => some ([(String.mk k.data, w)], r4)
              | _ => none) = some ((k, v) :: (k2, v2) :: t2, rest)
          rw [ih1 v _ hJv h2.1
            (by simp only [List.head?_cons, Option.elim_some]; decide)]
          obtain ⟨tl3, htl3⟩ := stringifyObj_head k2 v2 t2
          show (parseMembers f
              (skipWs (stringifyObj ((k2, v2) :: t2) ++ '}' :: rest))).map
              (fun p => ((String.mk k.data, v) :: p.1, p.2)) =
            some ((k, v) :: (k2, v2) :: t2, rest)
          rw [htl3]
          simp only [List.cons_append]
          rw [skipWs_not '"' _ (by decide)]
          have hre : '"' :: (tl3 ++ '}' :: rest) =
              stringifyObj ((k2, v2) :: t2) ++ '}' :: rest := by
            rw [htl3]
            simp
          rw [hre, ih3 ((k2, v2) :: t2) rest (by simp)
            (by rw [JsizeObj] at h1; omega) h2.2]
          simp only [Option.map_some', stringMk_data]

theorem jsonParse_stringify (v : JVal) (h : wfJ v = true) :
    jsonParse (String.mk (stringifyV v)) = some v := by
  have hmain := (roundtrip_aux ((stringifyV v).length + 1)).1 v []
    (by have := Jsize_le_length v; omega) h (by simp)
  rw [List.append_nil] at hmain
  show (match parseVal ((stringifyV v).length + 1) (stringifyV v) with
    | some (w, rest) => if skipWs rest = [] then some w else none
    | none => none) = some v
  rw [hmain]
  rfl

/-- C5 counterexample: the code tests the FIRST character of the line
against `{` (bunyan.mjs 1793), not the first non-space character as the
spec states: a line of a space followed by `{` is passed through raw by
the code, while the spec's classifier calls it Invalid. -/
theorem c5_counterexample :
    classify " \x7b" = Outcome.passThrough ∧
    specClassify " \x7b" = Outcome.invalid := by
  constructor
  · rfl
  · rfl

/-- C5 (amended): the classifier is total with exactly the three
outcomes, but the pass-through test is on the first character of the
line (an empty line has none): PassThrough iff the first character is
not `{`; Valid exactly for parseable lines with all seven well-known
fields non-null; Invalid otherwise. -/
theorem c5_classifier_amended (line : String) :
    (classify line = Outcome.passThrough ↔ line.data.head? ≠ some '{') ∧
    (∀ kvs, classify line = Outcome.valid kvs ↔
      (line.data.head? = some '{' ∧ jsonParse line = some (.obj kvs) ∧
        isValidRecord kvs = true)) ∧
    (classify line = Outcome.invalid ↔
      (line.data.head? = some '{' ∧
        ∀ kvs, ¬(jsonParse line = some (.obj kvs) ∧ isValidRecord kvs = true))) := by
  unfold classify
  by_cases h0 : line.data = []
  · rw [if_pos h0]
    simp [h0]
  · rw [if_neg h0]
    by_cases hc : line.data.head? = some '{'
    · rw [if_neg (by simpa using hc)]
      cases hp : jsonParse line with
      | none => simp [hp, hc]
      | some j =>
        cases j with
        | null => simp [hp, hc]
        | bool b => simp [hp, hc]
        | num n => simp [hp, hc]
        | str s => simp [hp, hc]
        | arr xs => simp [hp, hc]
        | obj kvs =>
          by_cases hv : isValidRecord kvs
          · simp only [hp, hc, if_pos hv]
            refine ⟨by simp, fun kvs2 => ?_, by simp [hv]⟩
            constructor
            · intro he
              injection he with he2
              subst he2
              simp [hv]
            · rintro ⟨_, h2, _⟩
              injection h2 with h3
              injection h3 with h4
              subst h4
              rfl
          · simp only [hp, hc, if_neg hv]
            refine ⟨by simp, fun kvs2 => ?_, ?_⟩
            · simp only [true_and]
              constructor
              · intro he
                exact absurd he (by simp)
              · rintro ⟨h2, h3⟩
                injection h2 with h4
                injection h4 with h5
                subst h5
                exact absurd h3 (by simpa using hv)
            · refine ⟨fun _ => ⟨trivial, fun kvs2 => ?_⟩, fun _ => trivial⟩
              rintro ⟨h2, h3⟩
              injection h2 with h4
              injection h4 with h5
              subst h5
              exact absurd h3 (by simpa using hv)
    · rw [if_pos hc]
      simp [hc]

theorem exceptBind_ok {α β : Type} (a : α) (k : α → Except String β) :
    (do let x ← Except.ok a; k x) = k a := rfl

theorem runConds_spec (rec : Rec) (fns : List (Rec → Except String Bool))
    (hok : ∀ f ∈ fns, ∃ b, f rec = Except.ok b) :
    (runConds rec fns = Except.ok true ↔ ∀ f ∈ fns, f rec = Except.ok true) ∧
    (∃ b, runConds rec fns = Except.ok b) := by
  induction fns with
  | nil => exact ⟨by simp [runConds], ⟨true, rfl⟩⟩
  | cons f rest ih =>
    obtain ⟨b, hb⟩ := hok f (List.mem_cons_self f rest)
    have hok2 : ∀ g ∈ rest, ∃ b2, g rec = Except.ok b2 :=
      fun g hg => hok g (List.mem_cons_of_mem f hg)
    obtain ⟨ih1, ih2⟩ := ih hok2
    rw [runConds]
    cases b with
    | false =>
      rw [hb, exceptBind_ok]
      rw [if_neg (by simp)]
      refine ⟨⟨fun he => ?_, fun hall => ?_⟩, ⟨false, rfl⟩⟩
      · injection he with h2
        exact absurd h2 (by simp)
      · have h3 := hall f (List.mem_cons_self f rest)
        rw [hb] at h3
        injection h3 with h4
        exact absurd h4 (by simp)
    | true =>
      rw [hb, exceptBind_ok, if_pos rfl]
      constructor
      · constructor
        · intro he g hg
          rcases List.mem_cons.mp hg with rfl | hg2
          · exact hb
          · exact ih1.mp he g hg2
        · intro hall
          exact ih1.mpr (fun g hg => hall g (List.mem_cons_of_mem f hg))
      · exact ih2

/-- C6: for a valid record with numeric level, a set minimum level, and
predicates none of which raises on the record, the filter keeps the
record (returns true) exactly when the level is at or above the
threshold and every predicate returns truthy; and it always returns
normally (no raise). -/
theorem c6_filter_correctness (rec : Rec) (T m : Int)
    (fns : List (Rec → Except String Bool))
    (hm : oget rec "level" = some (.num m))
    (hok : ∀ f ∈ fns, ∃ b, f rec = Except.ok b) :
    (filterRecord rec ⟨some T, some fns⟩ = Except.ok true ↔
      (T ≤ m ∧ ∀ f ∈ fns, f rec = Except.ok true)) ∧
    (∃ b, filterRecord rec ⟨some T, some fns⟩ = Except.ok b) := by
  rw [filterRecord]
  simp only [levelDrops, hm]
  by_cases hlt : m < T
  · rw [if_pos (by simpa using hlt)]
    refine ⟨⟨fun he => absurd he (by simp), fun hall => absurd hall.1 (by omega)⟩,
      ⟨false, rfl⟩⟩
  · rw [if_neg (by simpa using hlt)]
    obtain ⟨h1, h2⟩ := runConds_spec rec fns hok
    refine ⟨?_, h2⟩
    rw [h1]
    exact ⟨fun hx => ⟨by omega, hx⟩, fun h => h.2⟩

/-- C6 witness: Scenario B at threshold WARN(40) with one always-true
predicate: the INFO(30) record is dropped, the ERROR(50) record kept. -/
theorem c6_filter_correctness_witness :
    filterRecord [("level", JVal.num 30)] ⟨some 40, some [fun _ => Except.ok true]⟩ =
      Except.ok false ∧
    filterRecord [("level", JVal.num 50)] ⟨some 40, some [fun _ => Except.ok true]⟩ =
      Except.ok true := by
  have hok : ∀ f ∈ [fun (_ : Rec) => Except.ok (ε := String) true],
      ∃ b, f [("level", JVal.num 30)] = Except.ok b := by
    intro f hf
    rcases List.mem_singleton.mp hf with rfl
    exact ⟨true, rfl⟩
  have h1 := c6_filter_correctness [("level", JVal.num 30)] 40 30
    [fun _ => Except.ok true] rfl hok
  have h2 := c6_filter_correctness [("level", JVal.num 50)] 40 50
    [fun _ => Except.ok true] rfl (by
      intro f hf
      rcases List.mem_singleton.mp hf with rfl
      exact ⟨true, rfl⟩)
  constructor
  · obtain ⟨b, hb⟩ := h1.2
    cases b with
    | true =>
      obtain ⟨hle, _⟩ := h1.1.mp hb
      omega
    | false => exact hb
  · exact h2.1.mpr ⟨by omega, by
      intro f hf
      rcases List.mem_singleton.mp hf with rfl
      rfl⟩

theorem exceptBind_err {α β : Type} (e : String) (k : α → Except String β) :
    (do let x ← Except.error e; k x) = (Except.error e : Except String β) := rfl

theorem runConds_error (rec : Rec) (f : Rec → Except String Bool) (e : String)
    (fns2 : List (Rec → Except String Bool)) (hf : f rec = Except.error e) :
    ∀ fns1, (∀ g ∈ fns1, g rec = Except.ok true) →
    runConds rec (fns1 ++ f :: fns2) = Except.error e := by
  intro fns1
  induction fns1 with
  | nil =>
    intro _
    rw [List.nil_append, runConds, hf, exceptBind_err]
  | cons g rest ih =>
    intro hall
    have hg := hall g (List.mem_cons_self g rest)
    rw [List.cons_append, runConds, hg, exceptBind_ok, if_pos rfl]
    exact ih (fun g2 hg2 => hall g2 (List.mem_cons_of_mem g hg2))

/-- C2 counterexample: a predicate that raises is not treated as a drop:
`filterRecord` returns the raised error (never `ok`), the run over the
line list aborts at that record — the following line is never evaluated
— and the process exits with code 1 via the uncaughtException handler. -/
theorem c2_counterexample :
    filterRecord [("level", JVal.num 30)]
      ⟨none, some [fun _ => Except.error "boom"]⟩ = Except.error "boom" ∧
    (∀ b : Bool, filterRecord [("level", JVal.num 30)]
      ⟨none, some [fun _ => Except.error "boom"]⟩ ≠ Except.ok b) ∧
    runLines ⟨none, some [fun _ => Except.error "boom"]⟩
      ["hello",
       "\x7b\"v\":0,\"level\":30,\"name\":\"n\",\"hostname\":\"h\",\"pid\":1,\"time\":\"t\",\"msg\":\"m\"\x7d",
       "world"] = Except.error "boom" ∧
    cliExitCode ⟨none, some [fun _ => Except.error "boom"]⟩
      ["hello",
       "\x7b\"v\":0,\"level\":30,\"name\":\"n\",\"hostname\":\"h\",\"pid\":1,\"time\":\"t\",\"msg\":\"m\"\x7d",
       "world"] = 1 := by
  refine ⟨rfl, ?_, rfl, rfl⟩
  intro b h
  rw [show filterRecord [("level", JVal.num 30)]
      ⟨none, some [fun _ => Except.error "boom"]⟩ = Except.error "boom" from rfl] at h
  exact Except.noConfusion h

/-- C2 (amended): a predicate error during evaluation is NOT caught by
the filter: when the level gate passes, the predicates before it return
truthy and one raises, `filterRecord` propagates the error (the record
is not merely dropped), the whole run over the input lines aborts at
that record regardless of what follows, and the process exit code is 1
(the uncaughtException handler prints crash details and exits). -/
theorem c2_predicate_error_amended (rec : Rec) (T : Option Int)
    (fns1 fns2 : List (Rec → Except String Bool)) (f : Rec → Except String Bool)
    (e : String) (opts : FilterOpts)
    (hopts : opts = ⟨T, some (fns1 ++ f :: fns2)⟩)
    (hlvl : levelDrops rec T = false)
    (h1 : ∀ g ∈ fns1, g rec = Except.ok true)
    (hf : f rec = Except.error e) :
    filterRecord rec opts = Except.error e ∧
    (∀ b, filterRecord rec opts ≠ Except.ok b) ∧
    (∀ line lines1 lines2,
      classify line = Outcome.valid rec →
      (∀ l ∈ lines1, ∃ b, handleLine opts l = Except.ok b) →
      runLines opts (lines1 ++ line :: lines2) = Except.error e ∧
      cliExitCode opts (lines1 ++ line :: lines2) = 1) := by
  subst hopts
  have hfil : filterRecord rec ⟨T, some (fns1 ++ f :: fns2)⟩ = Except.error e := by
    rw [filterRecord]
    rw [show (FilterOpts.mk T (some (fns1 ++ f :: fns2))).level = T from rfl, hlvl]
    rw [if_neg (by simp)]
    exact runConds_error rec f e fns2 hf fns1 h1
  refine ⟨hfil, fun b h => ?_, fun line lines1 lines2 hcl hgood => ?_⟩
  · rw [hfil] at h
    exact Except.noConfusion h
  · have hhl : handleLine ⟨T, some (fns1 ++ f :: fns2)⟩ line = Except.error e := by
      rw [handleLine, hcl]
      exact hfil
    have hrun : runLines ⟨T, some (fns1 ++ f :: fns2)⟩ (lines1 ++ line :: lines2) =
        Except.error e := by
      induction lines1 with
      | nil =>
        rw [List.nil_append, runLines, hhl, exceptBind_err]
      | cons l rest ih =>
        obtain ⟨b, hb⟩ := hgood l (List.mem_cons_self l rest)
        rw [List.cons_append, runLines, hb, exceptBind_ok]
        exact ih (fun l2 hl2 => hgood l2 (List.mem_cons_of_mem l hl2))
    exact ⟨hrun, by rw [cliExitCode, hrun]⟩

/-- C2 witness: concrete raising predicate aborts a concrete run. -/
theorem c2_predicate_error_amended_witness :
    runLines ⟨none, some [fun _ => Except.error "boom"]⟩
      ([] ++ "\x7b\"v\":0,\"level\":30,\"name\":\"n\",\"hostname\":\"h\",\"pid\":1,\"time\":\"t\",\"msg\":\"m\"\x7d" ::
        ["later line"]) = Except.error "boom" ∧
    cliExitCode ⟨none, some [fun _ => Except.error "boom"]⟩
      ([] ++ "\x7b\"v\":0,\"level\":30,\"name\":\"n\",\"hostname\":\"h\",\"pid\":1,\"time\":\"t\",\"msg\":\"m\"\x7d" ::
        ["later line"]) = 1 := by
  have h := c2_predicate_error_amended
    [("v", JVal.num 0), ("level", JVal.num 30), ("name", JVal.str "n"),
     ("hostname", JVal.str "h"), ("pid", JVal.num 1), ("time", JVal.str "t"),
     ("msg", JVal.str "m")]
    none [] [] (fun _ => Except.error "boom") "boom"
    ⟨none, some [fun _ => Except.error "boom"]⟩ rfl rfl
    (by intro g hg; exact absurd hg (List.not_mem_nil g)) rfl
  exact h.2.2
    "\x7b\"v\":0,\"level\":30,\"name\":\"n\",\"hostname\":\"h\",\"pid\":1,\"time\":\"t\",\"msg\":\"m\"\x7d"
    [] ["later line"] rfl (by intro l hl; exact absurd hl (List.not_mem_nil l))

theorem oget_odel_none (r : Rec) (k : String) : oget (odel r k) k = none := by
  induction r with
  | nil => rfl
  | cons p rest ih =>
    obtain ⟨k2, v⟩ := p
    rw [odel] at ih ⊢
    by_cases he : k2 = k
    · subst he
      simp only [List.filter_cons, bne_self_eq_false]
      exact ih
    · simp only [List.filter_cons, show (k2 != k) = true from by simp [he]]
      simp only [if_true, oget]
      rw [if_neg he]
      exact ih

theorem oget_odel_preserve (r : Rec) (k q : String) (h : oget r q = none) :
    oget (odel r k) q = none := by
  induction r with
  | nil => rfl
  | cons p rest ih =>
    obtain ⟨k2, v⟩ := p
    rw [oget] at h
    by_cases he : k2 = q
    · rw [if_pos he] at h
      exact absurd h (by simp)
    · rw [if_neg he] at h
      rw [odel, List.filter_cons]
      by_cases hk : (k2 != k) = true
      · rw [hk]
        simp only [if_true, oget]
        rw [if_neg he]
        exact ih h
      · simp only [hk]
        rw [if_neg (by simp)]
        exact ih h

theorem oget_objSet (b : List (String × JVal)) (k q : String) (v : JVal) :
    oget (objSet b k v) q = if k = q then some v else oget b q := by
  induction b with
  | nil =>
    simp only [objSet, oget]
  | cons p rest ih =>
    obtain ⟨k2, v2⟩ := p
    simp only [objSet]
    by_cases he : k2 = k
    · subst he
      rw [if_pos rfl]
      simp only [oget]
      by_cases hq : k2 = q
      · rw [if_pos hq, if_pos hq]
      · rw [if_neg hq, if_neg hq, if_neg hq]
    · rw [if_neg he]
      simp only [oget]
      rw [ih]
      by_cases h1 : k2 = q <;> by_cases h2 : k = q
      · exact absurd (h1.trans h2.symm) he
      · simp [h1, h2]
      · simp [h1, h2]
      · simp [h1, h2]

theorem oget_reexpose_none (pre : String) (e : List (String × JVal)) (q : String)
    (hq : ∀ p ∈ e, pre ++ "." ++ p.1 ≠ q) :
    ∀ base : Rec, oget base q = none → oget (reexpose pre e base) q = none := by
  induction e with
  | nil => intro base h; exact h
  | cons p rest ih =>
    intro base h
    rw [reexpose, List.foldl_cons]
    have h2 : oget (objSet base (pre ++ "." ++ p.1) p.2) q = none := by
      rw [oget_objSet, if_neg (hq p (List.mem_cons_self p rest))]
      exact h
    exact ih (fun p2 hp2 => hq p2 (List.mem_cons_of_mem p hp2)) _ h2

theorem prefixed_ne (pre k q : String) (hlen : q.length < pre.length + 1) :
    pre ++ "." ++ k ≠ q := by
  intro he
  have h2 := congrArg String.length he
  rw [String.length_append, String.length_append] at h2
  have h3 : ("." : String).length = 1 := rfl
  omega

theorem applyReqBlock_none (r : Rec) (h : oget r "v" = none) :
    oget (applyReqBlock r) "v" = none := by
  rw [applyReqBlock]
  cases ho : oget r "req" with
  | none => exact h
  | some reqv =>
    show oget (if truthy reqv && jsIsObject reqv then
      reexpose "req" (reqEntriesAfterDeletes reqv) (odel r "req") else r) "v" = none
    by_cases hb : (truthy reqv && jsIsObject reqv) = true
    · rw [if_pos hb]
      exact oget_reexpose_none "req" _ "v"
        (fun p _ => prefixed_ne _ _ _ (by decide)) _
        (oget_odel_preserve r "req" "v" h)
    · rw [if_neg hb]
      exact h

theorem applyClientReqBlock_none (r : Rec) (h : oget r "v" = none) :
    oget (applyClientReqBlock r) "v" = none := by
  rw [applyClientReqBlock]
  cases ho : oget r "client_req" with
  | none => exact h
  | some v =>
    show oget (if truthy v && jsIsObject v then
      reexpose "client_req" (clientReqEntriesAfterDeletes v) (odel r "client_req")
      else r) "v" = none
    by_cases hb : (truthy v && jsIsObject v) = true
    · rw [if_pos hb]
      exact oget_reexpose_none "client_req" _ "v"
        (fun p _ => prefixed_ne _ _ _ (by decide)) _
        (oget_odel_preserve r "client_req" "v" h)
    · rw [if_neg hb]
      exact h

theorem applyResBlock_none (key : String) (r : Rec) (h : oget r "v" = none) :
    oget (applyResBlock key r) "v" = none := by
  rw [applyResBlock]
  cases ho : oget r key with
  | none => exact h
  | some v =>
    show oget (if truthy v && jsIsObject v then
      reexpose "res" (resEntriesAfterDeletes v) (odel r key) else r) "v" = none
    by_cases hb : (truthy v && jsIsObject v) = true
    · rw [if_pos hb]
      exact oget_reexpose_none "res" _ "v"
        (fun p _ => prefixed_ne _ _ _ (by decide)) _
        (oget_odel_preserve r key "v" h)
    · rw [if_neg hb]
      exact h

theorem applyErrBlock_none (r : Rec) (h : oget r "v" = none) :
    oget (applyErrBlock r) "v" = none := by
  rw [applyErrBlock]
  cases ho : oget r "err" with
  | none => exact h
  | some errv =>
    show oget (if truthy errv && truthyOpt (jsGet errv "stack") then
      reexpose "err" (errEntries errv) (odel r "err") else r) "v" = none
    by_cases hb : (truthy errv && truthyOpt (jsGet errv "stack")) = true
    · rw [if_pos hb]
      exact oget_reexpose_none "err" _ "v"
        (fun p _ => prefixed_ne _ _ _ (by decide)) _
        (oget_odel_preserve r "err" "v" h)
    · rw [if_neg hb]
      exact h

theorem longStateCore_v_none (rec : Rec) : oget (longStateCore rec) "v" = none := by
  have h0 : oget (stripWellKnown rec) "v" = none := by
    rw [stripWellKnown]
    exact oget_odel_preserve _ _ _ (oget_odel_preserve _ _ _
      (oget_odel_preserve _ _ _ (oget_odel_preserve _ _ _
      (oget_odel_preserve _ _ _ (oget_odel_preserve _ _ _
      (oget_odel_preserve _ _ _ (oget_odel_preserve _ _ _
      (oget_odel_preserve _ _ _ (oget_odel_none rec "v")))))))))
  exact applyErrBlock_none _ (applyResBlock_none "client_res" _
    (applyResBlock_none "res" _ (applyClientReqBlock_none _
    (applyReqBlock_none _ h0))))

/-- C3 counterexample: rendering a minimal valid record in the default
long mode deletes every well-known field from the record object itself
(`delete rec.v` etc., bunyan.mjs 1844-1914): the record afterwards is
empty, not equal to the original. -/
theorem c3_counterexample :
    renderState OutputMode.long
      [("v", JVal.num 0), ("level", JVal.num 30), ("name", JVal.str "n"),
       ("hostname", JVal.str "h"), ("pid", JVal.num 1), ("time", JVal.str "t"),
       ("msg", JVal.str "m")] = Except.ok [] ∧
    renderState OutputMode.long
      [("v", JVal.num 0), ("level", JVal.num 30), ("name", JVal.str "n"),
       ("hostname", JVal.str "h"), ("pid", JVal.num 1), ("time", JVal.str "t"),
       ("msg", JVal.str "m")] ≠ Except.ok
      [("v", JVal.num 0), ("level", JVal.num 30), ("name", JVal.str "n"),
       ("hostname", JVal.str "h"), ("pid", JVal.num 1), ("time", JVal.str "t"),
       ("msg", JVal.str "m")] := by
  refine ⟨rfl, fun h => ?_⟩
  rw [show renderState OutputMode.long
      [("v", JVal.num 0), ("level", JVal.num 30), ("name", JVal.str "n"),
       ("hostname", JVal.str "h"), ("pid", JVal.num 1), ("time", JVal.str "t"),
       ("msg", JVal.str "m")] = Except.ok [] from rfl] at h
  injection h with h2
  exact List.noConfusion h2

/-- C3 (amended): the renderer is NOT pure on the record in the long and
short modes — it deletes the well-known fields from the original record
object in place (the schema-version field `v` is gone afterwards, while
a valid record had it); the json, bunyan, inspect and simple modes never
assign to or delete from the record. -/
theorem c3_render_mutation_amended (m : OutputMode) (rec : Rec) :
    ((m = .json ∨ m = .bunyan ∨ m = .inspect ∨ m = .simple) →
      renderState m rec = Except.ok rec) ∧
    ((m = .long ∨ m = .short) → isValidRecord rec = true →
      oget rec "v" ≠ none ∧
      ∀ r2, renderState m rec = Except.ok r2 → oget r2 "v" = none) := by
  constructor
  · rintro (rfl | rfl | rfl | rfl) <;> rfl
  · have hvne : isValidRecord rec = true → oget rec "v" ≠ none := by
      intro hv h0
      rw [isValidRecord, h0] at hv
      simp at hv
    rintro (rfl | rfl) hv
    · refine ⟨hvne hv, fun r2 hr2 => ?_⟩
      rw [renderState, longState, if_neg (by simp [hv])] at hr2
      rw [if_neg (by simp)] at hr2
      by_cases hmsg : msgIsStr rec = true
      · rw [if_neg (by simp [hmsg])] at hr2
        injection hr2 with h2
        rw [← h2]
        exact longStateCore_v_none rec
      · rw [if_pos (by simp [hmsg])] at hr2
        exact Except.noConfusion hr2
    · refine ⟨hvne hv, fun r2 hr2 => ?_⟩
      rw [renderState, longState, if_neg (by simp [hv])] at hr2
      by_cases ht : timeIsStr rec = true
      · rw [if_neg (by simp [ht])] at hr2
        by_cases hmsg : msgIsStr rec = true
        · rw [if_neg (by simp [hmsg])] at hr2
          injection hr2 with h2
          rw [← h2]
          exact longStateCore_v_none rec
        · rw [if_pos (by simp [hmsg])] at hr2
          exact Except.noConfusion hr2
      · rw [if_pos (by simp [ht])] at hr2
        exact Except.noConfusion hr2

/-- C3 witness: the bunyan mode leaves a concrete record untouched; the
long mode on the same valid record yields a state without `v`. -/
theorem c3_render_mutation_amended_witness :
    renderState OutputMode.bunyan [("v", JVal.num 0), ("level", JVal.num 30),
      ("name", JVal.str "n"), ("hostname", JVal.str "h"), ("pid", JVal.num 1),
      ("time", JVal.str "t"), ("msg", JVal.str "m")] = Except.ok
      [("v", JVal.num 0), ("level", JVal.num 30), ("name", JVal.str "n"),
       ("hostname", JVal.str "h"), ("pid", JVal.num 1), ("time", JVal.str "t"),
       ("msg", JVal.str "m")] ∧
    oget [("v", JVal.num 0), ("level", JVal.num 30), ("name", JVal.str "n"),
       ("hostname", JVal.str "h"), ("pid", JVal.num 1), ("time", JVal.str "t"),
       ("msg", JVal.str "m")] "v" ≠ none ∧
    oget ([] : Rec) "v" = none := by
  refine ⟨(c3_render_mutation_amended OutputMode.bunyan _).1 (by simp), ?_, ?_⟩
  · exact ((c3_render_mutation_amended OutputMode.long _).2 (Or.inl rfl) (by decide)).1
  · exact ((c3_render_mutation_amended OutputMode.long
      [("v", JVal.num 0), ("level", JVal.num 30), ("name", JVal.str "n"),
       ("hostname", JVal.str "h"), ("pid", JVal.num 1), ("time", JVal.str "t"),
       ("msg", JVal.str "m")]).2 (Or.inl rfl) (by decide)).2 [] rfl

theorem jsonParse_stringify_nl (v : JVal) (h : wfJ v = true) :
    jsonParse (String.mk (stringifyV v ++ ['\n'])) = some v := by
  have hmain := (roundtrip_aux ((stringifyV v ++ ['\n']).length + 1)).1 v ['\n']
    (by have := Jsize_le_length v; simp only [List.length_append]; omega) h
    (by simp only [List.head?_cons, Option.elim_some]; decide)
  show (match parseVal ((stringifyV v ++ ['\n']).length + 1) (stringifyV v ++ ['\n']) with
    | some (w, rest) => if skipWs rest = [] then some w else none
    | none => none) = some v
  rw [hmain]
  rfl

/-- C7: the OM_BUNYAN branch serializes the record object directly with
`JSON.stringify(rec, null, 0)` — no field including the schema version
`v` is deleted or elided (the record state is untouched) — and
re-parsing the emitted line recovers exactly the original record. -/
theorem c7_bunyan_roundtrip (rec : Rec) (hv : isValidRecord rec = true)
    (hwf : wfJ (.obj rec) = true) :
    renderState OutputMode.bunyan rec = Except.ok rec ∧
    renderBunyan rec = String.mk (stringifyV (.obj rec) ++ ['\n']) ∧
    jsonParse (renderBunyan rec) = some (.obj rec) := by
  refine ⟨rfl, rfl, ?_⟩
  rw [renderBunyan]
  exact jsonParse_stringify_nl _ hwf

/-- C7 witness: concrete record round-trips through the bunyan-mode
output line. -/
theorem c7_bunyan_roundtrip_witness :
    jsonParse (renderBunyan [("v", JVal.num 0), ("level", JVal.num 30),
      ("name", JVal.str "n"), ("hostname", JVal.str "h"), ("pid", JVal.num 1),
      ("time", JVal.str "t"), ("msg", JVal.str "m")]) = some (.obj
      [("v", JVal.num 0), ("level", JVal.num 30), ("name", JVal.str "n"),
       ("hostname", JVal.str "h"), ("pid", JVal.num 1), ("time", JVal.str "t"),
       ("msg", JVal.str "m")]) :=
  (c7_bunyan_roundtrip _ (by decide) (by decide)).2.2

/-- C8 counterexample: the code quotes an extras value only when it
contains a SPACE (U+0020) or is empty (bunyan.mjs 2103), not any
whitespace as the spec says: a short single-line string containing a tab
is emitted unquoted, where the spec's rule would quote it. -/
theorem c8_counterexample :
    leftoverEntry "k" (.str "a\tb") = Dest.extras "k=a\tb" ∧
    specLeftoverEntry "k" (.str "a\tb") = Dest.extras "k=\"a\\tb\"" ∧
    ("k=a\tb" : String) ≠ "k=\"a\\tb\"" := by
  refine ⟨rfl, rfl, by decide⟩

/-- C8 (amended): for every leftover top-level field left after the
long/short relocation, the entry goes to details (indented `key: value`)
exactly when the stringified value contains a newline or is longer than
50 characters; otherwise it is an extras entry `key=value`, JSON-quoted
exactly when the value is a string that contains a SPACE character or is
empty. -/
theorem c8_leftover_routing_amended (rec : Rec) (key : String) (value : JVal)
    (hmem : (key, value) ∈ longStateCore rec) :
    ((∃ s, leftoverEntry key value = Dest.details s) ↔
      ((leftStr value).data.contains '\n' ||
        decide (50 < (leftStr value).length)) = true) ∧
    (((leftStr value).data.contains '\n' ||
        decide (50 < (leftStr value).length)) = true →
      leftoverEntry key value =
        Dest.details (indentS (key ++ ": " ++ leftStr value))) ∧
    (((leftStr value).data.contains '\n' ||
        decide (50 < (leftStr value).length)) = false →
      ((jvalIsStr value && ((leftStr value).data.contains ' ' ||
          decide ((leftStr value).length = 0))) = true →
        leftoverEntry key value =
          Dest.extras (key ++ "=" ++ String.mk (quoteString (leftStr value)))) ∧
      ((jvalIsStr value && ((leftStr value).data.contains ' ' ||
          decide ((leftStr value).length = 0))) = false →
        leftoverEntry key value = Dest.extras (key ++ "=" ++ leftStr value))) := by
  rw [leftoverEntry]
  by_cases hd : ((leftStr value).data.contains '\n' ||
      decide (50 < (leftStr value).length)) = true
  · rw [if_pos hd]
    refine ⟨⟨fun _ => hd, fun _ => ⟨_, rfl⟩⟩, fun _ => rfl, fun hf => ?_⟩
    rw [hf] at hd
    exact absurd hd (by simp)
  · rw [if_neg hd]
    by_cases hq : (jvalIsStr value && ((leftStr value).data.contains ' ' ||
        decide ((leftStr value).length = 0))) = true
    · rw [if_pos hq]
      refine ⟨⟨fun ⟨s, hs⟩ => absurd hs (by simp), fun h2 => absurd h2 hd⟩,
        fun h2 => absurd h2 hd, fun _ => ⟨fun _ => rfl, fun hf => ?_⟩⟩
      rw [hf] at hq
      exact absurd hq (by simp)
    · rw [if_neg hq]
      refine ⟨⟨fun ⟨s, hs⟩ => absurd hs (by simp), fun h2 => absurd h2 hd⟩,
        fun h2 => absurd h2 hd, fun _ => ⟨fun h2 => absurd h2 hq, fun _ => rfl⟩⟩

/-- C8 witness: a record with one leftover string field containing a
space: it is routed to extras, JSON-quoted. -/
theorem c8_leftover_routing_amended_witness :
    leftoverEntry "k" (.str "a b") =
      Dest.extras ("k" ++ "=" ++ String.mk (quoteString (leftStr (.str "a b")))) := by
  have h := c8_leftover_routing_amended
    [("v", JVal.num 0), ("level", JVal.num 30), ("name", JVal.str "n"),
     ("hostname", JVal.str "h"), ("pid", JVal.num 1), ("time", JVal.str "t"),
     ("msg", JVal.str "m"), ("k", JVal.str "a b")] "k" (.str "a b")
    (by
      rw [show longStateCore [("v", JVal.num 0), ("level", JVal.num 30),
        ("name", JVal.str "n"), ("hostname", JVal.str "h"), ("pid", JVal.num 1),
        ("time", JVal.str "t"), ("msg", JVal.str "m"), ("k", JVal.str "a b")] =
        [("k", JVal.str "a b")] from rfl]
      exact List.mem_singleton.mpr rfl)
  exact (h.2.2 (by decide)).1 (by decide)

theorem objSetH_get (b : HObj) (k q : String) (v : HVal) :
    ogetH (objSetH b k v) q = if k = q then some v else ogetH b q := by
  induction b with
  | nil =>
    simp only [objSetH, ogetH]
  | cons p rest ih =>
    obtain ⟨k2, v2⟩ := p
    simp only [objSetH]
    by_cases he : k2 = k
    · subst he
      rw [if_pos rfl]
      simp only [ogetH]
      by_cases hq : k2 = q
      · rw [if_pos hq, if_pos hq]
      · rw [if_neg hq, if_neg hq, if_neg hq]
    · rw [if_neg he]
      simp only [ogetH]
      rw [ih]
      by_cases h1 : k2 = q <;> by_cases h2 : k = q
      · exact absurd (h1.trans h2.symm) he
      · simp [h1, h2]
      · simp [h1, h2]
      · simp [h1, h2]

theorem hGetObj_append (h : Heap) (o : HObj) (a : Nat) (ha : a < h.length) :
    hGetObj (h ++ [o]) a = hGetObj h a := by
  rw [hGetObj, hGetObj, List.get?_append ha]

theorem hGetObj_append_len (h : Heap) (o : HObj) :
    hGetObj (h ++ [o]) h.length = o := by
  rw [hGetObj, List.get?_concat_length]
  rfl

theorem hGetObj_set_ne (h : Heap) (b a : Nat) (o : HObj) (hne : a ≠ b) :
    hGetObj (h.set b o) a = hGetObj h a := by
  rw [hGetObj, hGetObj, List.get?_set_ne _ _ (fun he => hne he.symm)]

theorem hGetObj_set_self (h : Heap) (c : Nat) (o : HObj) (hc : c < h.length) :
    hGetObj (h.set c o) c = o := by
  rw [hGetObj, List.get?_set_eq]
  rw [show h.get? c = some (hGetObj h c) from ?_]
  · rfl
  · rw [hGetObj]
    cases hg : h.get? c with
    | none => exact absurd (List.get?_eq_none.mp hg) (by omega)
    | some o2 => rfl

theorem runWrites_get_ne (b a : Nat) (hne : a ≠ b) :
    ∀ (ws : List (String × HVal)) (h : Heap),
    hGetObj (runWrites h b ws) a = hGetObj h a := by
  intro ws
  induction ws with
  | nil => intro h; rfl
  | cons p rest ih =>
    intro h
    obtain ⟨k, v⟩ := p
    rw [runWrites, ih (hSetField h b k v), hSetField]
    exact hGetObj_set_ne _ _ _ _ hne

theorem runWrites_length (b : Nat) :
    ∀ (ws : List (String × HVal)) (h : Heap),
    (runWrites h b ws).length = h.length := by
  intro ws
  induction ws with
  | nil => intro h; rfl
  | cons p rest ih =>
    intro h
    obtain ⟨k, v⟩ := p
    rw [runWrites, ih, hSetField, List.length_set]

/-- C10: predicates run against `objCopy(rec)` — a fresh object holding
the record's top-level properties.  (1) Whatever top-level assignments
the predicate performs on its `this`, the original record object is
unchanged afterwards, so rendering sees the unmodified top level.
(2) Every top-level value, including references to nested objects, is
shared between copy and original.  (3) Hence a mutation inside a nested
object is visible through the untouched original record. -/
theorem c10_shallow_copy_semantics (h : Heap) (a : Nat)
    (writes : List (String × HVal)) (ha : a < h.length) :
    hGetObj (predCallOnCopy h a writes) a = hGetObj h a ∧
    (∀ k w, hGetField h a k = some w →
      hGetField (objCopyH h a).1 (objCopyH h a).2 k = some w) ∧
    (∀ c k2 w, c ≠ a → c < h.length →
      hGetField (hSetField (predCallOnCopy h a writes) c k2 w) c k2 = some w ∧
      hGetObj (hSetField (predCallOnCopy h a writes) c k2 w) a = hGetObj h a) := by
  have hmain : hGetObj (predCallOnCopy h a writes) a = hGetObj h a := by
    rw [predCallOnCopy,
      show (objCopyH h a).1 = h ++ [hGetObj h a] from rfl,
      show (objCopyH h a).2 = h.length from rfl]
    rw [runWrites_get_ne h.length a (by omega)]
    exact hGetObj_append h _ a ha
  have hlen : (predCallOnCopy h a writes).length = h.length + 1 := by
    rw [predCallOnCopy,
      show (objCopyH h a).1 = h ++ [hGetObj h a] from rfl,
      show (objCopyH h a).2 = h.length from rfl]
    rw [runWrites_length, List.length_append]
    rfl
  refine ⟨hmain, fun k w hk => ?_, fun c k2 w hca hc => ⟨?_, ?_⟩⟩
  · rw [hGetField, show (objCopyH h a).1 = h ++ [hGetObj h a] from rfl,
      show (objCopyH h a).2 = h.length from rfl, hGetObj_append_len]
    exact hk
  · rw [hGetField, hSetField, hGetObj_set_self _ _ _ (by omega), objSetH_get,
      if_pos rfl]
  · rw [hSetField, hGetObj_set_ne (predCallOnCopy h a writes) c a _
      (fun he => hca he.symm)]
    exact hmain

/-- C10 witness: concrete two-object heap — the predicate's top-level
write does not change the record, the nested reference is shared, and a
nested write is visible at the shared address. -/
theorem c10_shallow_copy_semantics_witness :
    hGetObj (predCallOnCopy
      [[("x", HVal.hnum 1), ("nested", HVal.href 1)], [("y", HVal.hnum 2)]]
      0 [("x", HVal.hnum 99)]) 0 =
      [("x", HVal.hnum 1), ("nested", HVal.href 1)] ∧
    hGetField (objCopyH
      [[("x", HVal.hnum 1), ("nested", HVal.href 1)], [("y", HVal.hnum 2)]] 0).1
      (objCopyH
      [[("x", HVal.hnum 1), ("nested", HVal.href 1)], [("y", HVal.hnum 2)]] 0).2
      "nested" = some (HVal.href 1) ∧
    hGetField (hSetField (predCallOnCopy
      [[("x", HVal.hnum 1), ("nested", HVal.href 1)], [("y", HVal.hnum 2)]]
      0 [("x", HVal.hnum 99)]) 1 "y" (HVal.hnum 7)) 1 "y" = some (HVal.hnum 7) := by
  have h := c10_shallow_copy_semantics
    [[("x", HVal.hnum 1), ("nested", HVal.href 1)], [("y", HVal.hnum 2)]]
    0 [("x", HVal.hnum 99)] (by decide)
  exact ⟨h.1, h.2.1 "nested" (HVal.href 1) (by decide),
    (h.2.2 1 "y" (HVal.hnum 7) (by decide) (by decide)).1⟩

end Bunyan
